import Mathlib

/-!
Verification of the diff-viz hierarchical layout and rendering core.

This file shallowly embeds the Go sources of the repository:
* the path-tree builder, totals calculation and single-child chain
  collapsing (`render/tree.go`: `BuildTreeFromFiles`, `InsertPath`,
  `CalcTotals`, `CollapseSingleChildPaths`, `FindNode`),
* the icicle layout engine (`render/icicle.go`: `buildLevelCells`,
  `buildLevels`) and its grid renderer,
* the label truncation function (`IcicleRenderer.truncate`).

Go `int` values in this code are non-negative at every operation that the
embedding models (diff counts, widths, positions), so they are embedded as
`Nat`; every subtraction in the source is guarded to be non-negative, and
`Nat` truncated subtraction agrees with the guarded Go expression at each
site.  Go's `/` on non-negative ints is `Nat` division.
-/

namespace DiffViz

/-- `diff.FileStat`: one input change record. -/
structure FileStat where
  Path : String
  Additions : Nat
  Deletions : Nat
  IsBinary : Bool
  IsUntracked : Bool
deriving Repr, DecidableEq

/-- `render.TreeNode` (tree.go): a node of the ownership tree.
Fields in source order: Name, Path, IsDir, Add, Del, IsBinary,
IsUntracked, Children. -/
inductive TreeNode : Type where
  | mk : String → String → Bool → Nat → Nat → Bool → Bool → List TreeNode → TreeNode
deriving Repr

def TreeNode.Name : TreeNode → String
  | .mk n _ _ _ _ _ _ _ => n

def TreeNode.Path : TreeNode → String
  | .mk _ p _ _ _ _ _ _ => p

def TreeNode.IsDir : TreeNode → Bool
  | .mk _ _ d _ _ _ _ _ => d

def TreeNode.Add : TreeNode → Nat
  | .mk _ _ _ a _ _ _ _ => a

def TreeNode.Del : TreeNode → Nat
  | .mk _ _ _ _ d _ _ _ => d

def TreeNode.IsBinary : TreeNode → Bool
  | .mk _ _ _ _ _ b _ _ => b

def TreeNode.IsUntracked : TreeNode → Bool
  | .mk _ _ _ _ _ _ u _ => u

def TreeNode.Children : TreeNode → List TreeNode
  | .mk _ _ _ _ _ _ _ cs => cs

/-- Replace the children list of a node, keeping all scalar fields. -/
def TreeNode.setChildren : TreeNode → List TreeNode → TreeNode
  | .mk n p d a del b u _, cs => .mk n p d a del b u cs

/-- The leaf-field assignment of `InsertPath` (`child.Add = file.Additions`
etc.): sets Add, Del, IsBinary, IsUntracked from the record, leaving Name,
Path, IsDir and Children untouched. -/
def setLeafFields (f : FileStat) : TreeNode → TreeNode
  | .mk n p d _ _ _ _ cs => .mk n p d f.Additions f.Deletions f.IsBinary f.IsUntracked cs

mutual

/-- Number of nodes of a tree (measure for chain-collapse termination). -/
def nodeSize : TreeNode → Nat
  | .mk _ _ _ _ _ _ _ cs => 1 + nodeSizeL cs

def nodeSizeL : List TreeNode → Nat
  | [] => 0
  | c :: cs => nodeSize c + nodeSizeL cs

end

/-- `strings.Split(path, "/")` on the character list: splitting on `'/'`,
never returning an empty list (the empty string splits to `[[]]`). -/
def splitSegs : List Char → List (List Char)
  | [] => [[]]
  | c :: cs =>
    if c = '/' then [] :: splitSegs cs
    else
      match splitSegs cs with
      | s :: ss => (c :: s) :: ss
      | [] => [[c]]

/-- Path segments of a record path, as in `strings.Split(file.Path, "/")`. -/
def splitPath (s : String) : List String :=
  (splitSegs s.data).map fun l => String.mk l

/-- `strings.Join(parts, "/")`. -/
def joinPath (l : List String) : String :=
  String.intercalate "/" l

/-- Replace the first child whose Name matches, as the find-loop of
`InsertPath` does. -/
def replaceFirst (name : String) (g : TreeNode → TreeNode) : List TreeNode → List TreeNode
  | [] => []
  | c :: cs => if c.Name = name then g c :: cs else c :: replaceFirst name g cs

/-- `bool`: is there a child with the given name. -/
def hasChild (name : String) (cs : List TreeNode) : Bool :=
  cs.any fun c => c.Name = name

/-- The per-segment walk of `InsertPath`, expressed on children lists.
`pre` is the list of already-consumed segments (so a created child's Path
is `strings.Join(parts[:i+1], "/")`).  For each segment it finds the first
child of that name or appends a fresh one (a directory unless the segment
is last), then descends; at the last segment it assigns the record's leaf
fields. -/
def insertSegs (f : FileStat) : List String → List String → List TreeNode → List TreeNode
  | _, [], cs => cs
  | pre, part :: rest, cs =>
    let step : TreeNode → TreeNode := fun c =>
      if rest.isEmpty then setLeafFields f c
      else c.setChildren (insertSegs f (pre ++ [part]) rest c.Children)
    if hasChild part cs then replaceFirst part step cs
    else cs ++ [step (TreeNode.mk part (joinPath (pre ++ [part])) (!rest.isEmpty) 0 0 false false [])]

/-- `InsertPath(root, file)`. -/
def insertPath (root : TreeNode) (f : FileStat) : TreeNode :=
  root.setChildren (insertSegs f [] (splitPath f.Path) root.Children)

/-- Go's `<` on strings: lexicographic comparison (byte order on UTF-8
agrees with the code-point order used here). -/
def strLt (a b : String) : Bool :=
  go a.data b.data
where
  go : List Char → List Char → Bool
    | [], [] => false
    | [], _ :: _ => true
    | _ :: _, [] => false
    | a :: as, b :: bs => if a = b then go as bs else decide (a < b)

/-- Insert a record into an already path-sorted list (helper for the
pre-sort of `BuildTreeFromFiles`). -/
def insertSortedFile (f : FileStat) : List FileStat → List FileStat
  | [] => [f]
  | g :: gs => if strLt f.Path g.Path then f :: g :: gs else g :: insertSortedFile f gs

/-- The alphabetical pre-sort of `BuildTreeFromFiles`
(`sort.Slice` by `Path <`), realised as insertion sort. -/
def sortFiles : List FileStat → List FileStat
  | [] => []
  | f :: fs => insertSortedFile f (sortFiles fs)

/-- `BuildTreeFromFiles`: sort records by path and insert them in order
into an empty root (Name "", IsDir true). -/
def buildTreeFromFiles (files : List FileStat) : TreeNode :=
  (sortFiles files).foldl insertPath (TreeNode.mk "" "" true 0 0 false false [])

mutual

/-- `CalcTotals`: recomputes a directory's Add/Del as the sum of its
children's computed totals; file nodes are returned unchanged (their
children, if any, are not visited). -/
def calcTotals : TreeNode → TreeNode
  | .mk n p d a del b u cs =>
    if d then
      let cs' := calcTotalsL cs
      .mk n p d (sumAddL cs') (sumDelL cs') b u cs'
    else .mk n p d a del b u cs

def calcTotalsL : List TreeNode → List TreeNode
  | [] => []
  | c :: cs => calcTotals c :: calcTotalsL cs

def sumAddL : List TreeNode → Nat
  | [] => 0
  | c :: cs => c.Add + sumAddL cs

def sumDelL : List TreeNode → Nat
  | [] => 0
  | c :: cs => c.Del + sumDelL cs

end

mutual

/-- The value `CalcTotals` returns for a subtree: a file node's own Add, a
directory's sum over children. -/
def sAdd : TreeNode → Nat
  | .mk _ _ d a _ _ _ cs => if d then sAddL cs else a

def sAddL : List TreeNode → Nat
  | [] => 0
  | c :: cs => sAdd c + sAddL cs

end

mutual

def sDel : TreeNode → Nat
  | .mk _ _ d _ del _ _ cs => if d then sDelL cs else del

def sDelL : List TreeNode → Nat
  | [] => 0
  | c :: cs => sDel c + sDelL cs

end

/-- The merge step of `CollapseSingleChildPaths`: the parent takes the name
`parent/child`, the grandchild's path and the grandchild's children. -/
def mergeNode (c g : TreeNode) : TreeNode :=
  TreeNode.mk (c.Name ++ "/" ++ g.Name) g.Path c.IsDir c.Add c.Del c.IsBinary c.IsUntracked g.Children

/-- One-step guard of the merge loop: a directory with exactly one child
that is itself a directory. -/
def chainStep (c : TreeNode) : Option TreeNode :=
  match c.Children with
  | [g] => if c.IsDir && g.IsDir then some (mergeNode c g) else none
  | _ => none

/-- The merge loop of `CollapseSingleChildPaths` with an explicit iteration
bound.  Each merge strictly shrinks `nodeSize`, so any bound at least
`nodeSize c` makes this the exact while loop (`collapseChain_fuel` below). -/
def collapseChainFuel : Nat → TreeNode → TreeNode
  | 0, c => c
  | fuel + 1, c =>
    match chainStep c with
    | some c' => collapseChainFuel fuel c'
    | none => c

/-- The `for child.IsDir && len(child.Children) == 1 && child.Children[0].IsDir`
loop of `CollapseSingleChildPaths`, applied to one child. -/
def collapseChain (c : TreeNode) : TreeNode :=
  collapseChainFuel (nodeSize c) c

mutual

/-- `CollapseSingleChildPaths`: for each child, first collapse its subtree,
then repeatedly merge it with its single directory child.  The node given
at top level is itself never merged. -/
def collapse : TreeNode → TreeNode
  | .mk n p d a del b u cs => .mk n p d a del b u (collapseL cs)

def collapseL : List TreeNode → List TreeNode
  | [] => []
  | c :: cs => collapseChain (collapse c) :: collapseL cs

end

mutual

/-- `FindNode`: first node (pre-order) whose Path matches. -/
def findNode (path : String) : TreeNode → Option TreeNode
  | t@(.mk _ p _ _ _ _ _ cs) => if p = path then some t else findNodeL path cs

def findNodeL (path : String) : List TreeNode → Option TreeNode
  | [] => none
  | c :: cs =>
    match findNode path c with
    | some r => some r
    | none => findNodeL path cs

end

/-! ## Icicle layout engine (`render/icicle.go`) -/

/-- `render.IcicleCell`: a node's column span at one depth.  `Start` is the
left edge, `End` the exclusive right edge. -/
structure IcicleCell where
  Label : String
  Path : String
  Total : Nat
  Add : Nat
  Del : Nat
  Start : Nat
  End : Nat
deriving Repr, DecidableEq

/-- `IcicleCell.Width()`. -/
def cellWidth (c : IcicleCell) : Nat := c.End - c.Start

/-- `node.Add + node.Del`, the magnitude used throughout the layout. -/
def total (n : TreeNode) : Nat := n.Add + n.Del

/-- Insert into a descending-by-total list, after any earlier node of
greater-or-equal total (a deterministic refinement of the unstable
`sort.Slice` with comparator `total i > total j`). -/
def insertDesc (n : TreeNode) : List TreeNode → List TreeNode
  | [] => [n]
  | m :: ms => if total m < total n then n :: m :: ms else m :: insertDesc n ms

/-- The filter-and-sort step of `buildLevelCells`: keep nodes with
`Add+Del > 0`, sort descending by total. -/
def sortByTotalDesc : List TreeNode → List TreeNode
  | [] => []
  | n :: ns => insertDesc n (sortByTotalDesc ns)

def filterChanged (nodes : List TreeNode) : List TreeNode :=
  nodes.filter fun n => 0 < n.Add + n.Del

/-- The nodes that survive the min-width trimming of `buildLevelCells`:
all sorted non-zero nodes if they fit, else the `availWidth/minCellWidth`
highest-ranked ones. -/
def keptNodes (minCellWidth : Nat) (nodes : List TreeNode) (availWidth : Nat) : List TreeNode :=
  if availWidth < (sortByTotalDesc (filterChanged nodes)).length * minCellWidth then
    (sortByTotalDesc (filterChanged nodes)).take (availWidth / minCellWidth)
  else sortByTotalDesc (filterChanged nodes)

/-- The loop body computing one node's width in `buildLevelCells`:
`minCellWidth` plus the proportional share of `extraWidth` (zero when
`extraWidth` or `totalChanges` is zero, as in the source's guard). -/
def rawWidth (minCellWidth extraWidth totalChanges : Nat) (n : TreeNode) : Nat :=
  minCellWidth +
    (if 0 < extraWidth ∧ 0 < totalChanges then (n.Add + n.Del) * extraWidth / totalChanges else 0)

/-- The proportional width computation of `buildLevelCells`: reserve
`minCellWidth` each, distribute `extraWidth` proportionally by
`nodeTotal/totalChanges` (integer division), then give any residual to the
first (largest) node. -/
def layoutWidths (minCellWidth : Nat) (kept : List TreeNode) (availWidth totalChanges : Nat) : List Nat :=
  let minReserved := kept.length * minCellWidth
  let extraWidth := availWidth - minReserved
  let ws := kept.map (rawWidth minCellWidth extraWidth totalChanges)
  let usedWidth := ws.sum
  if usedWidth < availWidth then
    match ws with
    | [] => ws
    | w :: rest => (w + (availWidth - usedWidth)) :: rest
  else ws

/-- The cell-construction loop of `buildLevelCells`: lay the kept nodes
left to right from `startPos` with the given widths. -/
def mkCellsFrom : List TreeNode → List Nat → Nat → List IcicleCell
  | n :: ns, w :: ws, pos =>
    { Label := n.Name ++ (if n.IsDir then "/" else "")
      Path := n.Path
      Total := n.Add + n.Del
      Add := n.Add
      Del := n.Del
      Start := pos
      End := pos + w } :: mkCellsFrom ns ws (pos + w)
  | _, _, _ => []

/-- `IcicleRenderer.buildLevelCells`: returns the cells for one sibling set
together with the number of nodes dropped there (the source accumulates the
latter into `r.droppedCount`).  `sortByTotalDesc (filterChanged nodes)` is
the source's `sorted` slice, `availWidth / minCellWidth` its `maxNodes`. -/
def buildLevelCells (minCellWidth : Nat) (nodes : List TreeNode) (startPos availWidth totalChanges : Nat) :
    List IcicleCell × Nat :=
  if nodes.isEmpty || availWidth < 1 then ([], 0)
  else if (sortByTotalDesc (filterChanged nodes)).isEmpty then ([], 0)
  else if availWidth < (sortByTotalDesc (filterChanged nodes)).length * minCellWidth then
    if availWidth / minCellWidth = 0 then ([], (sortByTotalDesc (filterChanged nodes)).length)
    else
      (mkCellsFrom ((sortByTotalDesc (filterChanged nodes)).take (availWidth / minCellWidth))
          (layoutWidths minCellWidth
            ((sortByTotalDesc (filterChanged nodes)).take (availWidth / minCellWidth))
            availWidth totalChanges)
          startPos,
        (sortByTotalDesc (filterChanged nodes)).length - availWidth / minCellWidth)
  else
    (mkCellsFrom (sortByTotalDesc (filterChanged nodes))
        (layoutWidths minCellWidth (sortByTotalDesc (filterChanged nodes)) availWidth totalChanges)
        startPos,
      0)

/-! ## Truncation (`IcicleRenderer.truncate`)

Strings are handled at the rune (character) level; the few byte-level
operations of the source (`strings.LastIndex(s, ".")`, trailing-byte test
for `'/'`) agree with the character-level ones because `'.'` and `'/'` are
ASCII and no UTF-8 continuation byte equals an ASCII byte. -/

/-- Character index of the last `'.'` (`strings.LastIndex(s, ".")`);
`none` plays the role of Go's `-1`. -/
def lastDotIdx : List Char → Option Nat
  | [] => none
  | c :: cs =>
    match lastDotIdx cs with
    | some i => some (i + 1)
    | none => if c = '.' then some 0 else none

/-- The body of `truncate` after the trailing-`'/'` adjustment, on a label
known to be longer than `maxLen`. -/
def truncCore (cs : List Char) (maxLen : Nat) : List Char :=
  if maxLen ≤ 2 then cs.take maxLen
  else
    match lastDotIdx cs with
    | some i =>
      if 0 < i then
        let ext := cs.drop i
        if 2 + 1 + ext.length ≤ maxLen then
          (cs.take i).take (maxLen - 1 - ext.length) ++ ('…' :: ext)
        else cs.take (maxLen - 1) ++ ['…']
      else cs.take (maxLen - 1) ++ ['…']
    | none => cs.take (maxLen - 1) ++ ['…']

/-- `IcicleRenderer.truncate`: shorten `s` to at most `maxLen` runes,
extension- and trailing-separator-aware. -/
def truncate (s : String) (maxLen : Nat) : String :=
  if maxLen = 0 then ""
  else if s.length ≤ maxLen then s
  else
    let cs := s.data
    if cs.getLast? = some '/' then String.mk (truncCore cs.dropLast (maxLen - 1) ++ ['/'])
    else String.mk (truncCore cs maxLen)

/-! ## Grid rendering (`render/icicle.go`)

A rendered row is a list of spans; a `.code` span is one of the ANSI color
sequences below (emitted at exactly the source's `r.color(...)` call
sites), a `.text` span is visible output.  Realizing a row with
`useColor = true` keeps the codes, with `false` replaces them by `""`,
exactly as `IcicleRenderer.color` does.  The visible (ANSI-stripped) width
of a realized row is therefore `rowVisLen`: the total length of its text
spans. -/

inductive Span where
  | text : String → Span
  | code : String → Span
deriving Repr, DecidableEq

def Span.visLen : Span → Nat
  | .text s => s.length
  | .code _ => 0

def rowVisLen (r : List Span) : Nat := (r.map Span.visLen).sum

def realizeSpan (useColor : Bool) : Span → String
  | .text s => s
  | .code s => if useColor then s else ""

def realizeRow (useColor : Bool) (r : List Span) : String :=
  String.join (r.map (realizeSpan useColor))

/-- ANSI color codes (`colors.go`). -/
def ColorDir : String := "\x1b[34m"
def ColorAdd : String := "\x1b[32m"
def ColorDel : String := "\x1b[31m"
def ColorReset : String := "\x1b[0m"

/-- `render.BoxStyle`. -/
structure BoxStyle where
  TopLeft : String
  TopRight : String
  BottomLeft : String
  BottomRight : String
  LeftSep : String
  RightSep : String
  TopSep : String
  BottomSep : String
  Cross : String
  Horizontal : String
  Vertical : String
deriving Repr, DecidableEq

def DefaultBoxStyle : BoxStyle :=
  ⟨"┌", "┐", "└", "┘", "├", "┤", "┬", "┴", "┼", "─", "│"⟩

def ASCIIBoxStyle : BoxStyle :=
  ⟨"+", "+", "+", "+", "+", "+", "+", "+", "+", "-", "|"⟩

/-- `IcicleCell.Color()`. -/
def cellColor (c : IcicleCell) : String :=
  if 0 < c.Add ∧ c.Del = 0 then ColorAdd
  else if 0 < c.Del ∧ c.Add = 0 then ColorDel
  else ColorDir

def spaces (n : Nat) : String := String.mk (List.replicate n ' ')

/-- `IcicleCell.formatCentered`: the centered, colored cell content and its
visual width. -/
def formatCentered (c : IcicleCell) (width reserveRight : Nat) : List Span × Nat :=
  let label := truncate c.Label (width - reserveRight)
  let labelLen := label.length
  let padding := width - labelLen - reserveRight
  let leftPad := padding / 2
  let rightPad := padding - leftPad
  ([.text (spaces leftPad), .code (cellColor c), .text label, .code ColorReset, .text (spaces rightPad)],
    leftPad + labelLen + rightPad)

/-- `IcicleRenderer.getBoundaries` as a predicate: position `pos` carries a
separator iff some cell of the level ends there, the outer border excluded. -/
def getBoundaries (width : Nat) (levels : List (List IcicleCell)) (levelIdx : Nat) :
    Nat → Bool :=
  fun pos => (levels.getD levelIdx []).any fun c => c.End = pos && c.End < width - 2

/-- `IcicleRenderer.getLeafBoundaries`. -/
def getLeafBoundaries (width : Nat) (leaves : List IcicleCell) : Nat → Bool :=
  fun pos => leaves.any fun c => c.End = pos && c.End < width - 2

/-- A top or bottom border row (`renderBorder` / `renderLeafBorder`):
corner, `Width-2` horizontal positions with separators at boundaries,
corner. -/
def borderRow (width : Nat) (bnd : Nat → Bool) (leftC sepC horizC rightC : String) : List Span :=
  [Span.text leftC]
    ++ ((List.range' 1 (width - 2)).map fun pos => Span.text (if bnd pos then sepC else horizC))
    ++ [Span.text rightC]

/-- A separator row between two boundary sets (`renderSeparator` /
`renderLeafSeparator`). -/
def separatorRow (style : BoxStyle) (width : Nat) (above below : Nat → Bool) : List Span :=
  [Span.text style.LeftSep]
    ++ ((List.range' 1 (width - 2)).map fun pos =>
      Span.text
        (if above pos && below pos then style.Cross
        else if above pos then style.BottomSep
        else if below pos then style.TopSep
        else style.Horizontal))
    ++ [Span.text style.RightSep]

/-- Gap filling in a content row: spaces, or the vertical bar where a
parent boundary crosses. -/
def gapFill (style : BoxStyle) (pb : Nat → Bool) (start count : Nat) : List Span :=
  (List.range' start count).map fun p => Span.text (if pb p then style.Vertical else " ")

/-- The per-cell loop of `renderContentRow`: gap, centered content,
separator between cells; returns the spans and the final cursor. -/
def contentCells (style : BoxStyle) (pb : Nat → Bool) : List IcicleCell → Nat → List Span × Nat
  | [], pos => ([], pos)
  | c :: rest, pos =>
    let gap := gapFill style pb pos (c.Start + 1 - pos)
    let fc := formatCentered c (cellWidth c) 1
    let pos' := c.Start + 1 + fc.2
    match rest with
    | [] => (gap ++ fc.1, pos')
    | _ :: _ =>
      let r := contentCells style pb rest (pos' + 1)
      (gap ++ fc.1 ++ [Span.text style.Vertical] ++ r.1, r.2)

/-- `renderContentRow`. -/
def contentRow (style : BoxStyle) (width : Nat) (pb : Nat → Bool) (level : List IcicleCell) :
    List Span :=
  let r := contentCells style pb level 1
  [Span.text style.Vertical] ++ r.1 ++ gapFill style pb r.2 (width - 1 - r.2)
    ++ [Span.text style.Vertical]

/-- The stats text of one leaf cell in the footer (`+adds` and optional
` -dels`), colored, or truncated plain if it does not fit. -/
def statsSpans (c : IcicleCell) : List Span :=
  let addPart := "+" ++ toString c.Add
  let delPart := if 0 < c.Del then " -" ++ toString c.Del else ""
  let statsLen := (addPart ++ delPart).length
  let availWidth := cellWidth c - 1
  let colored :=
    [Span.code ColorAdd, Span.text addPart, Span.code ColorReset]
      ++ (if delPart ≠ "" then [Span.code ColorDel, Span.text delPart, Span.code ColorReset] else [])
  let final := if availWidth < statsLen then [Span.text ((addPart ++ delPart).take availWidth)] else colored
  let shownLen := if availWidth < statsLen then availWidth else statsLen
  let padding := availWidth - shownLen
  let leftPad := padding / 2
  let rightPad := padding - leftPad
  [Span.text (spaces leftPad)] ++ final ++ [Span.text (spaces rightPad)]

/-- The per-cell loop of `renderStatsFooterFromCells`. -/
def footerCells (style : BoxStyle) : List IcicleCell → Nat → List Span × Nat
  | [], pos => ([], pos)
  | c :: rest, pos =>
    let gap := (List.range' pos (c.Start + 1 - pos)).map fun _ => Span.text " "
    let body := statsSpans c
    let pos' := c.Start + 1 + (cellWidth c - 1)
    match rest with
    | [] => (gap ++ body, pos')
    | _ :: _ =>
      let r := footerCells style rest (pos' + 1)
      (gap ++ body ++ [Span.text style.Vertical] ++ r.1, r.2)

/-- `renderStatsFooterFromCells`. -/
def footerRow (style : BoxStyle) (width : Nat) (leaves : List IcicleCell) : List Span :=
  let r := footerCells style leaves 1
  [Span.text style.Vertical] ++ r.1
    ++ ((List.range' r.2 (width - 1 - r.2)).map fun _ => Span.text " ")
    ++ [Span.text style.Vertical]

/-- `collectLeafCells`: is this cell a leaf (no next-level cell starts
within its span)? -/
def isLeafCell (levels : List (List IcicleCell)) (depth : Nat) (cell : IcicleCell) : Bool :=
  !(levels.getD (depth + 1) []).any fun child => cell.Start ≤ child.Start && child.Start < cell.End

/-- Insert into a Start-ascending list (the `sort.Slice` by `Start <` of
`collectLeafCells`, as stable insertion sort). -/
def insertByStart (c : IcicleCell) : List IcicleCell → List IcicleCell
  | [] => [c]
  | m :: ms => if c.Start < m.Start then c :: m :: ms else m :: insertByStart c ms

def sortByStart : List IcicleCell → List IcicleCell
  | [] => []
  | c :: cs => insertByStart c (sortByStart cs)

/-- `collectLeafCells`. -/
def collectLeafCells (levels : List (List IcicleCell)) : List IcicleCell :=
  sortByStart
    ((List.range levels.length).flatMap fun depth =>
      (levels.getD depth []).filter (isLeafCell levels depth))

/-! ## Level construction (`buildLevels`) -/

/-- `diff.DiffStats`. -/
structure DiffStats where
  Files : List FileStat
  TotalAdd : Nat
  TotalDel : Nat
  TotalFiles : Nat
deriving Repr, DecidableEq

/-- The stats `ParseNumstat` produces for a record list: the files, summed
totals, and the file count. -/
def mkStats (files : List FileStat) : DiffStats :=
  { Files := files
    TotalAdd := (files.map FileStat.Additions).sum
    TotalDel := (files.map FileStat.Deletions).sum
    TotalFiles := files.length }

mutual

def treeHeight : TreeNode → Nat
  | .mk _ _ _ _ _ _ _ cs => 1 + treeHeightL cs

def treeHeightL : List TreeNode → Nat
  | [] => 0
  | c :: cs => max (treeHeight c) (treeHeightL cs)

end

/-- `IcicleRenderer` configuration fields (`Width`, `MaxDepth`,
`MinCellWidth`); the defaults of `NewIcicleRenderer` are 100, 4, 12. -/
structure IcicleConfig where
  Width : Nat
  MaxDepth : Nat
  MinCellWidth : Nat
deriving Repr, DecidableEq

/-- One pass of the breadth-first loop body of `buildLevels`: the next
level's cells (children of the previous level's cells, laid out inside
each cell's span with the cell's total as scope) and the nodes dropped. -/
def nextLevelCells (minCellWidth : Nat) (tree : TreeNode) : List IcicleCell → List IcicleCell × Nat
  | [] => ([], 0)
  | cell :: rest =>
    let contrib :=
      match findNode cell.Path tree with
      | none => ([], 0)
      | some node =>
        if node.IsDir && !node.Children.isEmpty then
          buildLevelCells minCellWidth node.Children cell.Start (cellWidth cell) cell.Total
        else ([], 0)
    let r := nextLevelCells minCellWidth tree rest
    (contrib.1 ++ r.1, contrib.2 + r.2)

/-- The breadth-first loop of `buildLevels`, with an explicit iteration
bound: `MaxDepth - 1` iterations when `MaxDepth > 0` (the loop runs for
depths `1 .. MaxDepth-1`); for `MaxDepth = 0` the Go loop is unbounded and
stops at the first empty level, which happens within `treeHeight` steps
since each level's cells name strictly deeper nodes. -/
def buildLoop (minCellWidth : Nat) (tree : TreeNode) : Nat → List IcicleCell → List (List IcicleCell) × Nat
  | 0, _ => ([], 0)
  | fuel + 1, prev =>
    let next := nextLevelCells minCellWidth tree prev
    if next.1.isEmpty then ([], next.2)
    else
      let more := buildLoop minCellWidth tree fuel next.1
      (next.1 :: more.1, next.2 + more.2)

/-- `IcicleRenderer.buildLevels`: the levels and the total dropped count. -/
def buildLevels (cfg : IcicleConfig) (stats : DiffStats) : List (List IcicleCell) × Nat :=
  let tree := collapse (calcTotals (buildTreeFromFiles stats.Files))
  let totalChanges := if stats.TotalAdd + stats.TotalDel = 0 then 1 else stats.TotalAdd + stats.TotalDel
  let usableWidth := cfg.Width - 2
  let l0 := buildLevelCells cfg.MinCellWidth tree.Children 0 usableWidth totalChanges
  if l0.1.isEmpty then ([], l0.2)
  else
    let fuel := if cfg.MaxDepth = 0 then treeHeight tree else cfg.MaxDepth - 1
    let more := buildLoop cfg.MinCellWidth tree fuel l0.1
    (l0.1 :: more.1, l0.2 + more.2)

/-- `fmt.Fprintf` summary line of `Render`. -/
def summaryRow (stats : DiffStats) (dropped : Nat) : List Span :=
  [Span.code ColorAdd, Span.text ("+" ++ toString stats.TotalAdd), Span.code ColorReset,
    Span.text " ",
    Span.code ColorDel, Span.text ("-" ++ toString stats.TotalDel), Span.code ColorReset,
    Span.text (" in " ++ toString stats.TotalFiles ++ " files"
      ++ (if 0 < dropped then " (" ++ toString dropped ++ " hidden)" else ""))]

/-- The grid rows of `Render` after the levels are built: top border,
content rows with inter-level separators, leaf separator, stats footer,
leaf-aligned bottom border, summary. -/
def gridRows (style : BoxStyle) (cfg : IcicleConfig) (stats : DiffStats)
    (levels : List (List IcicleCell)) (dropped : Nat) : List (List Span) :=
  let w := cfg.Width
  let bnd := getBoundaries w levels
  let body := (List.range levels.length).flatMap fun depth =>
    [contentRow style w (if depth = 0 then fun _ => false else bnd (depth - 1)) (levels.getD depth [])]
      ++ (if depth + 1 < levels.length then [separatorRow style w (bnd depth) (bnd (depth + 1))] else [])
  let leaves := collectLeafCells levels
  let leafBnd := getLeafBoundaries w leaves
  [borderRow w (bnd 0) style.TopLeft style.TopSep style.Horizontal style.TopRight]
    ++ body
    ++ [separatorRow style w (bnd (levels.length - 1)) leafBnd]
    ++ [footerRow style w leaves]
    ++ [borderRow w leafBnd style.BottomLeft style.BottomSep style.Horizontal style.BottomRight]
    ++ [summaryRow stats dropped]

/-- `IcicleRenderer.Render` as span rows. -/
def icicleSpans (cfg : IcicleConfig) (style : BoxStyle) (stats : DiffStats) : List (List Span) :=
  if stats.TotalFiles = 0 then [[Span.text "No changes"]]
  else if (buildLevels cfg stats).1.isEmpty || ((buildLevels cfg stats).1.headD []).isEmpty then
    [[Span.text "No changes"]]
  else gridRows style cfg stats (buildLevels cfg stats).1 (buildLevels cfg stats).2

/-- `IcicleRenderer.Render` output lines: `NewIcicleRenderer` picks the
Unicode box style with color on and the ASCII style with color off, and
`IcicleRenderer.color` keeps or drops the ANSI codes. -/
def icicleRender (cfg : IcicleConfig) (useColor : Bool) (stats : DiffStats) : List String :=
  (icicleSpans cfg (if useColor then DefaultBoxStyle else ASCIIBoxStyle) stats).map
    (realizeRow useColor)

/-! ## Layout lemmas -/

/-- Total magnitude of a sibling list. -/
def sumTotal (l : List TreeNode) : Nat := (l.map total).sum

/-! ## Insertion lemmas (C3, C10)

The observation functions below address nodes by their segment path (the
sequence of child names followed from the root), mirroring the walk of
`InsertPath`; `findFirst` is its first-match child lookup. -/

/-- First child with the given name (the find-loop of `InsertPath`). -/
def findFirst (name : String) : List TreeNode → Option TreeNode
  | [] => none
  | c :: cs => if c.Name = name then some c else findFirst name cs

/-- Walk a non-empty segment address through children lists. -/
def getL : List TreeNode → List String → Option TreeNode
  | _, [] => none
  | cs, [last] => findFirst last cs
  | cs, part :: rest =>
    match findFirst part cs with
    | some c => getL c.Children rest
    | none => none

/-- The freshness condition under which inserting an address adds a new
leaf: the full address is absent and every existing proper prefix is a
directory. -/
def okInsert : List TreeNode → List String → Prop
  | _, [] => True
  | cs, [last] => findFirst last cs = none
  | cs, part :: rest =>
    match findFirst part cs with
    | some c => c.IsDir = true ∧ okInsert c.Children rest
    | none => True

/-- Segment-list prefix test. -/
def isSegPrefix : List String → List String → Bool
  | [], _ => true
  | _ :: _, [] => false
  | x :: xs, y :: ys => x = y && isSegPrefix xs ys

/-- The record for a path that ends up last after the pre-sort. -/
def lastWith (p : String) (l : List FileStat) : Option FileStat :=
  (l.filter fun g => g.Path = p).getLast?

/-- Inverse of `splitSegs`: join with `'/'`. -/
def joinChars : List (List Char) → List Char
  | [] => []
  | [s] => s
  | s :: ss => s ++ '/' :: joinChars ss

/-- The per-child update `InsertPath` applies at one segment. -/
def stepFn (f : FileStat) (pre : List String) (part : String) (rest : List String) :
    TreeNode → TreeNode :=
  fun c =>
    if rest.isEmpty then setLeafFields f c
    else c.setChildren (insertSegs f (pre ++ [part]) rest c.Children)

/-- The pair a leaf's stored counters form. -/
def vals (n : TreeNode) : Nat × Nat := (n.Add, n.Del)

/-- The record-insertion fold of `BuildTreeFromFiles`, at the root's
children list. -/
def foldInsert : List TreeNode → List FileStat → List TreeNode
  | cs, [] => cs
  | cs, g :: rest => foldInsert (insertSegs g [] (splitPath g.Path) cs) rest

/-- The pairwise condition under which the tree keeps every record as its
own leaf: neither path's segment list is a prefix of the other's. -/
def segDistinct (a b : FileStat) : Prop :=
  isSegPrefix (splitPath a.Path) (splitPath b.Path) = false ∧
  isSegPrefix (splitPath b.Path) (splitPath a.Path) = false

/-- The width formula as the specification states it: `minCellWidth` plus
the node's proportional share of the leftover
`availableWidth - kept*minCellWidth`, by integer division over the
pre-drop branch total. -/
def claimWidths (m avail T : Nat) (kept : List TreeNode) : List Nat :=
  kept.map fun n => m + (n.Add + n.Del) * (avail - kept.length * m) / T

/-- The tree shape `CollapseSingleChildPaths` establishes below a node:
every child is merge-irreducible and recursively so. -/
inductive Collapsed : TreeNode → Prop where
  | mk : ∀ (t : TreeNode), (∀ c ∈ t.Children, chainStep c = none) →
      (∀ c ∈ t.Children, Collapsed c) → Collapsed t

/-- Every box-drawing character of a style occupies one column. -/
def oneWide (s : BoxStyle) : Prop :=
  s.TopLeft.length = 1 ∧ s.TopRight.length = 1 ∧ s.BottomLeft.length = 1 ∧
  s.BottomRight.length = 1 ∧ s.LeftSep.length = 1 ∧ s.RightSep.length = 1 ∧
  s.TopSep.length = 1 ∧ s.BottomSep.length = 1 ∧ s.Cross.length = 1 ∧
  s.Horizontal.length = 1 ∧ s.Vertical.length = 1

theorem nodeSize_eq (t : TreeNode) : nodeSize t = 1 + nodeSizeL t.Children := by
  cases t; rfl

theorem chainStep_size {c c' : TreeNode} (h : chainStep c = some c') :
    nodeSize c' < nodeSize c := by
  unfold chainStep at h
  cases hc : c.Children with
  | nil => rw [hc] at h; exact absurd h (by simp)
  | cons g gs =>
    cases gs with
    | cons _ _ => rw [hc] at h; exact absurd h (by simp)
    | nil =>
      rw [hc] at h
      simp only [] at h
      by_cases hd : (c.IsDir && g.IsDir) = true
      · rw [if_pos hd] at h
        cases h
        rw [nodeSize_eq, nodeSize_eq, hc]
        simp only [mergeNode, TreeNode.Children, nodeSizeL, nodeSize_eq g]
        omega
      · rw [if_neg hd] at h; cases h

/-- Fuel irrelevance: any bound at least `nodeSize c` computes the full
while loop. -/
theorem collapseChain_fuel {fuel : Nat} {c : TreeNode} (h : nodeSize c ≤ fuel) :
    collapseChainFuel fuel c = collapseChain c := by
  unfold collapseChain
  induction fuel using Nat.strong_induction_on generalizing c with
  | _ fuel ih =>
    have hpos : 0 < nodeSize c := by rw [nodeSize_eq]; omega
    cases fuel with
    | zero => omega
    | succ n =>
      cases hn : nodeSize c with
      | zero => omega
      | succ m =>
        simp only [collapseChainFuel]
        cases hs : chainStep c with
        | none => rfl
        | some c' =>
          simp only []
          have hlt := chainStep_size hs
          rw [hn] at hlt
          have h1 : collapseChainFuel n c' = collapseChainFuel (nodeSize c') c' := by
            apply ih n (by omega) (by omega)
          have h2 : collapseChainFuel m c' = collapseChainFuel (nodeSize c') c' := by
            apply ih m (by omega) (by omega)
          rw [h1, h2]

theorem insertDesc_length (n : TreeNode) (l : List TreeNode) :
    (insertDesc n l).length = l.length + 1 := by
  induction l with
  | nil => rfl
  | cons m ms ih =>
    by_cases h : total m < total n <;> simp [insertDesc, h, ih]

theorem sortByTotalDesc_length (l : List TreeNode) :
    (sortByTotalDesc l).length = l.length := by
  induction l with
  | nil => rfl
  | cons n ns ih => simp [sortByTotalDesc, insertDesc_length, ih]

theorem insertDesc_sumTotal (n : TreeNode) (l : List TreeNode) :
    sumTotal (insertDesc n l) = total n + sumTotal l := by
  induction l with
  | nil => rfl
  | cons m ms ih =>
    by_cases h : total m < total n
    · simp [insertDesc, h, sumTotal]
    · simp only [insertDesc, h, if_false, reduceIte, sumTotal, List.map_cons,
        List.sum_cons] at ih ⊢
      omega

theorem sortByTotalDesc_sumTotal (l : List TreeNode) :
    sumTotal (sortByTotalDesc l) = sumTotal l := by
  induction l with
  | nil => rfl
  | cons n ns ih =>
    calc sumTotal (sortByTotalDesc (n :: ns))
        = total n + sumTotal (sortByTotalDesc ns) := insertDesc_sumTotal _ _
      _ = total n + sumTotal ns := by rw [ih]
      _ = sumTotal (n :: ns) := by simp [sumTotal]

theorem sum_take_le (l : List Nat) (k : Nat) : (l.take k).sum ≤ l.sum := by
  conv_rhs => rw [← List.take_append_drop k l]
  rw [List.sum_append]
  omega

theorem sumTotal_take_le (l : List TreeNode) (k : Nat) :
    sumTotal (l.take k) ≤ sumTotal l := by
  unfold sumTotal
  rw [List.map_take]
  exact sum_take_le _ _

theorem sublist_sum_le {l₁ l₂ : List Nat} (h : l₁.Sublist l₂) : l₁.sum ≤ l₂.sum := by
  induction h with
  | slnil => exact le_refl _
  | cons a _ ih => simp only [List.sum_cons]; omega
  | cons₂ a _ ih => simp only [List.sum_cons]; omega

theorem sumTotal_filterChanged_le (nodes : List TreeNode) :
    sumTotal (filterChanged nodes) ≤ sumTotal nodes :=
  sublist_sum_le ((List.filter_sublist nodes).map total)

theorem div_add_div_le (a b c : Nat) : a / c + b / c ≤ (a + b) / c := by
  rcases Nat.eq_zero_or_pos c with hc | hc
  · simp [hc]
  · rw [Nat.le_div_iff_mul_le hc, Nat.add_mul]
    have ha := Nat.div_mul_le_self a c
    have hb := Nat.div_mul_le_self b c
    omega

theorem sum_map_div_le (ts : List Nat) (E T : Nat) :
    (ts.map fun t => t * E / T).sum ≤ ts.sum * E / T := by
  induction ts with
  | nil => simp
  | cons t ts ih =>
    simp only [List.map_cons, List.sum_cons]
    calc t * E / T + (ts.map fun t => t * E / T).sum
        ≤ t * E / T + ts.sum * E / T := by omega
      _ ≤ (t * E + ts.sum * E) / T := div_add_div_le _ _ _
      _ = (t + ts.sum) * E / T := by rw [Nat.add_mul]
      _ = (t :: ts).sum * E / T := by rw [List.sum_cons]

/-- The conditional in the source is redundant over `Nat`: multiplying by a
zero extra or dividing by a zero total gives zero either way. -/
theorem rawWidth_eq (m E T : Nat) (n : TreeNode) :
    rawWidth m E T n = m + (n.Add + n.Del) * E / T := by
  unfold rawWidth
  by_cases hE : 0 < E
  · by_cases hT : 0 < T
    · simp [hE, hT]
    · have hT0 : T = 0 := by omega
      simp [hE, hT, hT0]
  · have hE0 : E = 0 := by omega
    simp [hE, hE0]

theorem layoutWidths_nil (m avail T : Nat) : layoutWidths m [] avail T = [] := by
  simp only [layoutWidths, List.map_nil, List.sum_nil]
  split <;> rfl

/-- Canonical form on a non-empty kept list: first raw width plus the
(possibly zero) residual, then the remaining raw widths. -/
theorem layoutWidths_cons (m : Nat) (n : TreeNode) (ns : List TreeNode) (avail T : Nat) :
    layoutWidths m (n :: ns) avail T =
      (rawWidth m (avail - (n :: ns).length * m) T n
          + (avail - ((n :: ns).map (rawWidth m (avail - (n :: ns).length * m) T)).sum))
        :: ns.map (rawWidth m (avail - (n :: ns).length * m) T) := by
  simp only [layoutWidths, List.map_cons, List.sum_cons]
  by_cases h : rawWidth m (avail - (n :: ns).length * m) T n
      + (ns.map (rawWidth m (avail - (n :: ns).length * m) T)).sum < avail
  · rw [if_pos h]
  · rw [if_neg h]
    have h0 : avail - (rawWidth m (avail - (n :: ns).length * m) T n
        + (ns.map (rawWidth m (avail - (n :: ns).length * m) T)).sum) = 0 := by omega
    rw [h0, Nat.add_zero]

theorem layoutWidths_length (m : Nat) (kept : List TreeNode) (avail T : Nat) :
    (layoutWidths m kept avail T).length = kept.length := by
  cases kept with
  | nil => rw [layoutWidths_nil]; rfl
  | cons n ns => rw [layoutWidths_cons]; simp

theorem map_rawWidth_sum (m E T : Nat) (kept : List TreeNode) :
    (kept.map (rawWidth m E T)).sum
      = kept.length * m + ((kept.map total).map fun t => t * E / T).sum := by
  induction kept with
  | nil => simp
  | cons n ns ih =>
    simp only [List.map_cons, List.sum_cons, List.length_cons, rawWidth_eq]
    rw [ih]
    simp only [total]
    ring

theorem rawWidths_sum_le (m : Nat) (kept : List TreeNode) (avail T : Nat)
    (hfit : kept.length * m ≤ avail) (hT : sumTotal kept ≤ T) :
    (kept.map (rawWidth m (avail - kept.length * m) T)).sum ≤ avail := by
  set E := avail - kept.length * m with hE
  rw [map_rawWidth_sum]
  have h2 : ((kept.map total).map fun t => t * E / T).sum ≤ E := by
    calc ((kept.map total).map fun t => t * E / T).sum
        ≤ (kept.map total).sum * E / T := sum_map_div_le _ _ _
      _ ≤ T * E / T := Nat.div_le_div_right (Nat.mul_le_mul_right _ hT)
      _ ≤ E := by
          rcases Nat.eq_zero_or_pos T with h | h
          · simp [h]
          · rw [Nat.mul_div_cancel_left _ h]
  omega

theorem layoutWidths_sum (m : Nat) (kept : List TreeNode) (avail T : Nat)
    (hne : kept ≠ []) (hfit : kept.length * m ≤ avail) (hT : sumTotal kept ≤ T) :
    (layoutWidths m kept avail T).sum = avail := by
  cases kept with
  | nil => exact absurd rfl hne
  | cons n ns =>
    have hle := rawWidths_sum_le m (n :: ns) avail T hfit hT
    rw [layoutWidths_cons]
    simp only [List.map_cons, List.sum_cons] at hle ⊢
    omega

theorem layoutWidths_pos (m : Nat) (kept : List TreeNode) (avail T : Nat) :
    ∀ w ∈ layoutWidths m kept avail T, m ≤ w := by
  cases kept with
  | nil => rw [layoutWidths_nil]; simp
  | cons n ns =>
    rw [layoutWidths_cons]
    intro w hw
    rcases List.mem_cons.mp hw with rfl | hw
    · rw [rawWidth_eq]
      generalize (n.Add + n.Del) * (avail - (n :: ns).length * m) / T = q
      omega
    · rw [List.mem_map] at hw
      obtain ⟨x, _, rfl⟩ := hw
      rw [rawWidth_eq]
      generalize (x.Add + x.Del) * (avail - (n :: ns).length * m) / T = q
      omega

theorem mkCellsFrom_map_width (ns : List TreeNode) (ws : List Nat) (pos : Nat)
    (h : ns.length = ws.length) :
    (mkCellsFrom ns ws pos).map cellWidth = ws := by
  induction ns generalizing ws pos with
  | nil => cases ws with
    | nil => rfl
    | cons w ws => simp at h
  | cons n ns ih =>
    cases ws with
    | nil => simp at h
    | cons w ws =>
      simp only [mkCellsFrom, List.map_cons]
      rw [ih ws (pos + w) (by simpa using h)]
      simp [cellWidth]

theorem mkCellsFrom_length (ns : List TreeNode) (ws : List Nat) (pos : Nat) :
    (mkCellsFrom ns ws pos).length = min ns.length ws.length := by
  induction ns generalizing ws pos with
  | nil => cases ws <;> simp [mkCellsFrom]
  | cons n ns ih =>
    cases ws with
    | nil => simp [mkCellsFrom]
    | cons w ws => simp [mkCellsFrom, ih]; omega

theorem mkCellsFrom_map_path (ns : List TreeNode) (ws : List Nat) (pos : Nat)
    (h : ns.length = ws.length) :
    (mkCellsFrom ns ws pos).map IcicleCell.Path = ns.map TreeNode.Path := by
  induction ns generalizing ws pos with
  | nil => cases ws with
    | nil => rfl
    | cons w ws => simp at h
  | cons n ns ih =>
    cases ws with
    | nil => simp at h
    | cons w ws =>
      simp only [mkCellsFrom, List.map_cons]
      rw [ih ws (pos + w) (by simpa using h)]

theorem mkCellsFrom_chain (ns : List TreeNode) (ws : List Nat) (pos : Nat) :
    List.Chain' (fun a b => b.Start = a.End) (mkCellsFrom ns ws pos) := by
  induction ns generalizing ws pos with
  | nil => cases ws <;> simp [mkCellsFrom]
  | cons n ns ih =>
    cases ws with
    | nil => simp [mkCellsFrom]
    | cons w ws =>
      simp only [mkCellsFrom]
      cases ns with
      | nil => cases ws <;> simp [mkCellsFrom]
      | cons n' ns' =>
        cases ws with
        | nil => simp [mkCellsFrom]
        | cons w' ws' =>
          refine List.Chain'.cons ?_ (ih (w' :: ws') (pos + w))
          simp [mkCellsFrom]

theorem mkCellsFrom_head_start (n : TreeNode) (ns : List TreeNode) (w : Nat) (ws : List Nat)
    (pos : Nat) :
    (mkCellsFrom (n :: ns) (w :: ws) pos).head?.map IcicleCell.Start = some pos := by
  simp [mkCellsFrom]

theorem mkCellsFrom_pos (ns : List TreeNode) (ws : List Nat) (pos : Nat)
    (hpos : ∀ w ∈ ws, 0 < w) :
    ∀ c ∈ mkCellsFrom ns ws pos, c.Start < c.End := by
  induction ns generalizing ws pos with
  | nil => cases ws <;> simp [mkCellsFrom]
  | cons n ns ih =>
    cases ws with
    | nil => simp [mkCellsFrom]
    | cons w ws =>
      intro c hc
      simp only [mkCellsFrom, List.mem_cons] at hc
      rcases hc with rfl | hc
      · have := hpos w (by simp)
        simp
        omega
      · exact ih ws (pos + w) (fun x hx => hpos x (by simp [hx])) c hc

theorem chain_pos_start_le (cells : List IcicleCell)
    (hc : List.Chain' (fun a b => b.Start = a.End) cells)
    (hpos : ∀ c ∈ cells, c.Start < c.End) :
    ∀ h x, cells.head? = some h → x ∈ cells → h.Start ≤ x.Start := by
  induction cells with
  | nil => intro h x hh; simp at hh
  | cons a rest ih =>
    intro h x hh hx
    simp only [List.head?_cons, Option.some.injEq] at hh
    subst hh
    rcases List.mem_cons.mp hx with rfl | hx
    · exact le_refl _
    · cases rest with
      | nil => simp at hx
      | cons b rest' =>
        have hchain := List.chain'_cons.mp hc
        have hb : b.Start = a.End := hchain.1
        have hrest := hchain.2
        have := ih hrest (fun c hc' => hpos c (by simp [hc'])) b x rfl hx
        have ha := hpos a (by simp)
        omega

theorem chain_pos_pairwise (cells : List IcicleCell)
    (hc : List.Chain' (fun a b => b.Start = a.End) cells)
    (hpos : ∀ c ∈ cells, c.Start < c.End) :
    List.Pairwise (fun a b => a.End ≤ b.Start) cells := by
  induction cells with
  | nil => exact List.Pairwise.nil
  | cons a rest ih =>
    cases rest with
    | nil => simp
    | cons b rest' =>
      have hchain := List.chain'_cons.mp hc
      have hb : b.Start = a.End := hchain.1
      have hrest := hchain.2
      refine List.Pairwise.cons ?_ (ih hrest fun c hc' => hpos c (by simp [hc']))
      intro x hx
      have := chain_pos_start_le (b :: rest') hrest
        (fun c hc' => hpos c (by simp [hc'])) b x rfl hx
      omega

theorem insertDesc_mem (x n : TreeNode) (l : List TreeNode) :
    x ∈ insertDesc n l ↔ x = n ∨ x ∈ l := by
  induction l with
  | nil => simp [insertDesc]
  | cons m ms ih =>
    by_cases h : total m < total n
    · simp [insertDesc, h]
    · simp only [insertDesc, h, if_false, reduceIte, List.mem_cons, ih]
      tauto

theorem insertDesc_pairwise (n : TreeNode) (l : List TreeNode)
    (h : List.Pairwise (fun a b => total b ≤ total a) l) :
    List.Pairwise (fun a b => total b ≤ total a) (insertDesc n l) := by
  induction l with
  | nil => simp [insertDesc]
  | cons m ms ih =>
    rcases List.pairwise_cons.mp h with ⟨hm, hms⟩
    by_cases hlt : total m < total n
    · simp only [insertDesc, hlt, if_true, reduceIte]
      refine List.pairwise_cons.mpr ⟨?_, h⟩
      intro x hx
      rcases List.mem_cons.mp hx with rfl | hx
      · omega
      · have := hm x hx; omega
    · simp only [insertDesc, hlt, if_false, reduceIte]
      refine List.pairwise_cons.mpr ⟨?_, ih hms⟩
      intro x hx
      rcases (insertDesc_mem x n ms).mp hx with rfl | hx
      · omega
      · exact hm x hx

theorem sortByTotalDesc_pairwise (l : List TreeNode) :
    List.Pairwise (fun a b => total b ≤ total a) (sortByTotalDesc l) := by
  induction l with
  | nil => exact List.Pairwise.nil
  | cons n ns ih => exact insertDesc_pairwise n _ ih

theorem keptNodes_sorted (m : Nat) (nodes : List TreeNode) (avail : Nat) :
    List.Pairwise (fun a b => total b ≤ total a) (keptNodes m nodes avail) := by
  unfold keptNodes
  split
  · exact List.Pairwise.sublist (List.take_sublist _ _) (sortByTotalDesc_pairwise _)
  · exact sortByTotalDesc_pairwise _

theorem keptNodes_fit (m : Nat) (nodes : List TreeNode) (avail : Nat) :
    (keptNodes m nodes avail).length * m ≤ avail := by
  unfold keptNodes
  split
  · have h1 : ((sortByTotalDesc (filterChanged nodes)).take (avail / m)).length ≤ avail / m := by
      simp [List.length_take]
    calc ((sortByTotalDesc (filterChanged nodes)).take (avail / m)).length * m
        ≤ (avail / m) * m := Nat.mul_le_mul_right m h1
      _ ≤ avail := Nat.div_mul_le_self avail m
  · omega

theorem keptNodes_sumTotal_le (m : Nat) (nodes : List TreeNode) (avail : Nat) :
    sumTotal (keptNodes m nodes avail) ≤ sumTotal nodes := by
  unfold keptNodes
  have hbase : sumTotal (sortByTotalDesc (filterChanged nodes)) ≤ sumTotal nodes := by
    rw [sortByTotalDesc_sumTotal]
    exact sumTotal_filterChanged_le nodes
  split
  · exact le_trans (sumTotal_take_le _ _) hbase
  · exact hbase

theorem keptNodes_length_ne_zero (m : Nat) (nodes : List TreeNode) (avail : Nat)
    (hm : 1 ≤ m) (havail : m ≤ avail) (hne : filterChanged nodes ≠ []) :
    keptNodes m nodes avail ≠ [] := by
  unfold keptNodes
  have hlen : (sortByTotalDesc (filterChanged nodes)).length ≠ 0 := by
    rw [sortByTotalDesc_length]
    simpa [List.length_eq_zero] using hne
  have hdiv : 1 ≤ avail / m := (Nat.one_le_div_iff (by omega)).mpr havail
  split
  · intro h
    have hlt := congrArg List.length h
    rw [List.length_take, List.length_nil] at hlt
    omega
  · intro h
    have hlt := congrArg List.length h
    rw [List.length_nil] at hlt
    omega

/-- When no sibling has changes the branch yields nothing and drops
nothing. -/
theorem buildLevelCells_of_filter_nil (m : Nat) (nodes : List TreeNode) (start avail T : Nat)
    (hf : filterChanged nodes = []) :
    buildLevelCells m nodes start avail T = ([], 0) := by
  unfold buildLevelCells
  by_cases hcond : (nodes.isEmpty || decide (avail < 1)) = true
  · rw [if_pos hcond]
  · rw [if_neg hcond]
    have hsortnil : sortByTotalDesc (filterChanged nodes) = [] := by rw [hf]; rfl
    rw [hsortnil]
    simp

theorem sortByTotalDesc_filter_ne (nodes : List TreeNode) (hf : filterChanged nodes ≠ []) :
    (sortByTotalDesc (filterChanged nodes)).isEmpty = false := by
  have hlen : (sortByTotalDesc (filterChanged nodes)).length ≠ 0 := by
    rw [sortByTotalDesc_length]
    simpa [List.length_eq_zero] using hf
  cases h : sortByTotalDesc (filterChanged nodes) with
  | nil => rw [h] at hlen; simp at hlen
  | cons a l => rfl

theorem filter_ne_not_isEmpty (nodes : List TreeNode) (hf : filterChanged nodes ≠ []) :
    (nodes.isEmpty || decide (avail < 1)) = true ↔ avail < 1 := by
  have : nodes ≠ [] := by
    intro h
    rw [h] at hf
    exact hf rfl
  have : nodes.isEmpty = false := by
    cases nodes with
    | nil => exact absurd rfl this
    | cons a l => rfl
  simp [this]

/-- When fewer than one minimum cell width fits, every non-zero sibling is
dropped and no cells are produced. -/
theorem buildLevelCells_of_div_zero (m : Nat) (nodes : List TreeNode) (start avail T : Nat)
    (hm : 1 ≤ m) (havail : 1 ≤ avail) (hf : filterChanged nodes ≠ [])
    (hdiv : avail / m = 0) :
    buildLevelCells m nodes start avail T = ([], (filterChanged nodes).length) := by
  unfold buildLevelCells
  rw [if_neg (by rw [filter_ne_not_isEmpty nodes hf]; omega)]
  rw [if_neg (by rw [sortByTotalDesc_filter_ne nodes hf]; simp)]
  have hmgt : avail < m := by
    by_contra hc
    push_neg at hc
    have := (Nat.one_le_div_iff (show 0 < m by omega)).mpr hc
    omega
  have hlen : 1 ≤ (sortByTotalDesc (filterChanged nodes)).length := by
    rw [sortByTotalDesc_length]
    cases h : filterChanged nodes with
    | nil => exact absurd h hf
    | cons a l => simp
  have htrim : avail < (sortByTotalDesc (filterChanged nodes)).length * m := by
    have : m ≤ (sortByTotalDesc (filterChanged nodes)).length * m := by
      calc m = 1 * m := by ring
        _ ≤ (sortByTotalDesc (filterChanged nodes)).length * m := Nat.mul_le_mul_right m hlen
    omega
  rw [if_pos htrim, if_pos hdiv]
  rw [sortByTotalDesc_length]

/-- When at least one minimum cell width fits, the branch lays out exactly
the kept nodes and drops the remainder. -/
theorem buildLevelCells_of_kept (m : Nat) (nodes : List TreeNode) (start avail T : Nat)
    (havail : 1 ≤ avail) (hf : filterChanged nodes ≠ []) (hdiv : avail / m ≠ 0) :
    buildLevelCells m nodes start avail T =
      (mkCellsFrom (keptNodes m nodes avail)
          (layoutWidths m (keptNodes m nodes avail) avail T) start,
        (filterChanged nodes).length - (keptNodes m nodes avail).length) := by
  have hm : 1 ≤ m := by
    by_contra hc
    push_neg at hc
    have hz : m = 0 := by omega
    rw [hz] at hdiv
    simp at hdiv
  unfold buildLevelCells keptNodes
  rw [if_neg (by rw [filter_ne_not_isEmpty nodes hf]; omega)]
  rw [if_neg (by rw [sortByTotalDesc_filter_ne nodes hf]; simp)]
  by_cases htrim : avail < (sortByTotalDesc (filterChanged nodes)).length * m
  · rw [if_pos htrim, if_neg hdiv, if_pos htrim]
    have hlt : avail / m < (sortByTotalDesc (filterChanged nodes)).length :=
      Nat.div_lt_of_lt_mul (by rw [Nat.mul_comm]; omega)
    have htake : ((sortByTotalDesc (filterChanged nodes)).take (avail / m)).length
        = avail / m := by
      simp [List.length_take]
      omega
    rw [sortByTotalDesc_length] at hlt
    rw [sortByTotalDesc_length, htake]
  · rw [if_neg htrim, if_neg htrim]
    rw [sortByTotalDesc_length]
    simp

/-- C1: for a sibling set laid out by the engine — `minCellWidth ≥ 1`
(config guarantees positivity), `availableWidth ≥ minCellWidth`, at least
one node with changes (so at least one node is kept), and a
`totalChangesInScope` at least the sibling total (the engine passes the
parent's pre-drop total, `Width-2`'s global total at the root) — the cells
returned by `buildLevelCells` are non-empty, start at the given start
position, are contiguous (each cell starts where the previous ends),
non-degenerate, pairwise non-overlapping, and their widths sum exactly to
the available width. -/
theorem icicle_cells_tile_parent_span (m : Nat) (nodes : List TreeNode) (start avail T : Nat)
    (hm : 1 ≤ m) (havail : m ≤ avail) (hne : filterChanged nodes ≠ [])
    (hT : sumTotal nodes ≤ T) :
    (buildLevelCells m nodes start avail T).1 ≠ [] ∧
    ((buildLevelCells m nodes start avail T).1.head?.map IcicleCell.Start) = some start ∧
    List.Chain' (fun a b => b.Start = a.End) (buildLevelCells m nodes start avail T).1 ∧
    (∀ c ∈ (buildLevelCells m nodes start avail T).1, c.Start < c.End) ∧
    List.Pairwise (fun a b => a.End ≤ b.Start) (buildLevelCells m nodes start avail T).1 ∧
    ((buildLevelCells m nodes start avail T).1.map cellWidth).sum = avail := by
  have hkne := keptNodes_length_ne_zero m nodes avail hm havail hne
  have hdiv : avail / m ≠ 0 := by
    have := (Nat.one_le_div_iff (show 0 < m by omega)).mpr havail
    omega
  rw [buildLevelCells_of_kept m nodes start avail T (by omega) hne hdiv]
  dsimp only
  set kept := keptNodes m nodes avail with hkept
  set ws := layoutWidths m kept avail T with hws
  have hlen : kept.length = ws.length := (layoutWidths_length m kept avail T).symm
  have hfit : kept.length * m ≤ avail := keptNodes_fit m nodes avail
  have hTk : sumTotal kept ≤ T := le_trans (keptNodes_sumTotal_le m nodes avail) hT
  have hsum : ws.sum = avail := layoutWidths_sum m kept avail T hkne hfit hTk
  have hwpos : ∀ w ∈ ws, 0 < w := fun w hw =>
    lt_of_lt_of_le (by omega) (layoutWidths_pos m kept avail T w hw)
  have hchain := mkCellsFrom_chain kept ws start
  have hpos := mkCellsFrom_pos kept ws start hwpos
  refine ⟨?_, ?_, hchain, hpos, chain_pos_pairwise _ hchain hpos, ?_⟩
  · have hl : (mkCellsFrom kept ws start).length = kept.length := by
      rw [mkCellsFrom_length, hlen, Nat.min_self]
    intro h0
    rw [h0] at hl
    simp at hl
    exact hkne (List.length_eq_zero.mp hl.symm)
  · cases hk : kept with
    | nil => exact absurd hk hkne
    | cons n ns =>
      cases hw : ws with
      | nil =>
        rw [hk, hw] at hlen
        simp at hlen
      | cons w wrest =>
        rw [hk, hw] at *
        exact mkCellsFrom_head_start n ns w wrest start
  · rw [mkCellsFrom_map_width kept ws start hlen, hsum]

theorem claimWidths_eq_raw (m avail T : Nat) (kept : List TreeNode) :
    claimWidths m avail T kept = kept.map (rawWidth m (avail - kept.length * m) T) := by
  apply List.map_congr_left
  intro n _
  rw [rawWidth_eq]

/-- C2: under the same engine conditions as C1, each kept cell's width is
`minCellWidth + floor(nodeTotal * (avail - kept*minCellWidth) / T)` where
`T` is the pre-drop branch total passed in, except that the first-sorted
(highest-total) cell additionally receives the residual
`avail - sum-of-raw-widths`; that first cell's raw width is the maximum of
all raw widths, so the residual goes to the widest kept cell. -/
theorem icicle_cell_width_formula (m : Nat) (nodes : List TreeNode) (start avail T : Nat)
    (hm : 1 ≤ m) (havail : m ≤ avail) (hne : filterChanged nodes ≠ [])
    (hT : sumTotal nodes ≤ T) :
    ((buildLevelCells m nodes start avail T).1.map cellWidth
        = ((claimWidths m avail T (keptNodes m nodes avail)).headD 0
              + (avail - (claimWidths m avail T (keptNodes m nodes avail)).sum))
            :: (claimWidths m avail T (keptNodes m nodes avail)).tail) ∧
    ∀ w ∈ claimWidths m avail T (keptNodes m nodes avail),
      w ≤ (claimWidths m avail T (keptNodes m nodes avail)).headD 0 := by
  have hkne := keptNodes_length_ne_zero m nodes avail hm havail hne
  have hdiv : avail / m ≠ 0 := by
    have := (Nat.one_le_div_iff (show 0 < m by omega)).mpr havail
    omega
  rw [buildLevelCells_of_kept m nodes start avail T (by omega) hne hdiv]
  dsimp only
  rw [claimWidths_eq_raw]
  set kept := keptNodes m nodes avail with hkept
  have hlen : kept.length = (layoutWidths m kept avail T).length :=
    (layoutWidths_length m kept avail T).symm
  constructor
  · rw [mkCellsFrom_map_width kept _ start hlen]
    cases hk : kept with
    | nil => exact absurd hk hkne
    | cons n ns =>
      rw [layoutWidths_cons]
      simp
  · have hsorted := keptNodes_sorted m nodes avail
    rw [← hkept] at hsorted
    intro w hw
    rw [List.mem_map] at hw
    obtain ⟨x, hx, rfl⟩ := hw
    cases hk : kept with
    | nil => exact absurd hk hkne
    | cons n ns =>
      rw [hk] at hx hsorted
      simp only [List.map_cons, List.headD_cons]
      have hxle : total x ≤ total n := by
        rcases List.mem_cons.mp hx with rfl | hx
        · exact le_refl _
        · exact (List.pairwise_cons.mp hsorted).1 x hx
      have hdivle : (x.Add + x.Del) * (avail - (n :: ns).length * m) / T
          ≤ (n.Add + n.Del) * (avail - (n :: ns).length * m) / T := by
        apply Nat.div_le_div_right
        apply Nat.mul_le_mul_right
        simpa [total] using hxle
      simp only [rawWidth_eq]
      omega

/-- C4: with a positive budget and positive minimum cell width, the nodes
dropped at a branch plus the cells kept equal the number of
non-zero-magnitude siblings; when not all fit, exactly the
`avail/minCellWidth` highest-ranked (first-sorted) nodes are kept and the
rest are dropped; when zero nodes fit, no cells are produced and every
non-zero sibling is dropped. -/
theorem icicle_dropped_plus_kept (m : Nat) (nodes : List TreeNode) (start avail T : Nat)
    (hm : 1 ≤ m) (havail : 1 ≤ avail) :
    ((buildLevelCells m nodes start avail T).2
        + (buildLevelCells m nodes start avail T).1.length
      = (filterChanged nodes).length) ∧
    (avail < (filterChanged nodes).length * m →
      (buildLevelCells m nodes start avail T).1.map IcicleCell.Path
          = ((sortByTotalDesc (filterChanged nodes)).take (avail / m)).map TreeNode.Path ∧
        (buildLevelCells m nodes start avail T).2
          = (filterChanged nodes).length - avail / m) ∧
    (avail / m = 0 →
      (buildLevelCells m nodes start avail T).1 = [] ∧
      (buildLevelCells m nodes start avail T).2 = (filterChanged nodes).length) := by
  by_cases hf : filterChanged nodes = []
  · rw [buildLevelCells_of_filter_nil m nodes start avail T hf, hf]
    refine ⟨by simp, ?_, by simp⟩
    intro h
    simp at h
  · have hflen : 1 ≤ (filterChanged nodes).length := by
      cases h : filterChanged nodes with
      | nil => exact absurd h hf
      | cons a l => simp
    by_cases hdiv : avail / m = 0
    · rw [buildLevelCells_of_div_zero m nodes start avail T hm havail hf hdiv]
      refine ⟨by simp, ?_, fun _ => ⟨rfl, rfl⟩⟩
      intro _
      rw [hdiv]
      simp
    · rw [buildLevelCells_of_kept m nodes start avail T havail hf hdiv]
      dsimp only
      set kept := keptNodes m nodes avail with hkeptdef
      have hlenw : kept.length = (layoutWidths m kept avail T).length :=
        (layoutWidths_length m kept avail T).symm
      have hcl : (mkCellsFrom kept (layoutWidths m kept avail T) start).length = kept.length := by
        rw [mkCellsFrom_length, ← hlenw, Nat.min_self]
      have hkle : kept.length ≤ (filterChanged nodes).length := by
        rw [hkeptdef]
        unfold keptNodes
        split
        · calc ((sortByTotalDesc (filterChanged nodes)).take (avail / m)).length
              ≤ (sortByTotalDesc (filterChanged nodes)).length := by
                rw [List.length_take]
                omega
            _ = (filterChanged nodes).length := sortByTotalDesc_length _
        · rw [sortByTotalDesc_length]
      refine ⟨by rw [hcl]; omega, ?_, fun h => absurd h hdiv⟩
      intro htrim
      have htrim' : avail < (sortByTotalDesc (filterChanged nodes)).length * m := by
        rwa [sortByTotalDesc_length]
      have hkept_eq : kept = (sortByTotalDesc (filterChanged nodes)).take (avail / m) := by
        rw [hkeptdef]
        unfold keptNodes
        rw [if_pos htrim']
      have hkl : kept.length = avail / m := by
        rw [hkept_eq]
        have hlt : avail / m < (sortByTotalDesc (filterChanged nodes)).length :=
          Nat.div_lt_of_lt_mul (by rw [Nat.mul_comm]; omega)
        simp [List.length_take]
        omega
      constructor
      · rw [mkCellsFrom_map_path kept _ start hlenw, hkept_eq]
      · rw [hkl]

theorem icicle_cells_tile_parent_span_witness :
    (buildLevelCells 2 [TreeNode.mk "a" "a" false 5 0 false false [],
        TreeNode.mk "b" "b" false 3 1 false false []] 0 10 9).1 ≠ [] ∧
    ((buildLevelCells 2 [TreeNode.mk "a" "a" false 5 0 false false [],
        TreeNode.mk "b" "b" false 3 1 false false []] 0 10 9).1.head?.map IcicleCell.Start)
      = some 0 ∧
    List.Chain' (fun a b => b.Start = a.End)
      (buildLevelCells 2 [TreeNode.mk "a" "a" false 5 0 false false [],
        TreeNode.mk "b" "b" false 3 1 false false []] 0 10 9).1 ∧
    (∀ c ∈ (buildLevelCells 2 [TreeNode.mk "a" "a" false 5 0 false false [],
        TreeNode.mk "b" "b" false 3 1 false false []] 0 10 9).1, c.Start < c.End) ∧
    List.Pairwise (fun a b => a.End ≤ b.Start)
      (buildLevelCells 2 [TreeNode.mk "a" "a" false 5 0 false false [],
        TreeNode.mk "b" "b" false 3 1 false false []] 0 10 9).1 ∧
    ((buildLevelCells 2 [TreeNode.mk "a" "a" false 5 0 false false [],
        TreeNode.mk "b" "b" false 3 1 false false []] 0 10 9).1.map cellWidth).sum = 10 :=
  icicle_cells_tile_parent_span 2
    [TreeNode.mk "a" "a" false 5 0 false false [], TreeNode.mk "b" "b" false 3 1 false false []]
    0 10 9 (by decide) (by decide)
    (fun h => absurd (congrArg List.length h) (by decide)) (by decide)

theorem icicle_cell_width_formula_witness :
    ((buildLevelCells 2 [TreeNode.mk "a" "a" false 5 0 false false [],
          TreeNode.mk "b" "b" false 3 1 false false []] 0 10 9).1.map cellWidth
        = ((claimWidths 2 10 9 (keptNodes 2 [TreeNode.mk "a" "a" false 5 0 false false [],
              TreeNode.mk "b" "b" false 3 1 false false []] 10)).headD 0
              + (10 - (claimWidths 2 10 9 (keptNodes 2
                  [TreeNode.mk "a" "a" false 5 0 false false [],
                    TreeNode.mk "b" "b" false 3 1 false false []] 10)).sum))
            :: (claimWidths 2 10 9 (keptNodes 2 [TreeNode.mk "a" "a" false 5 0 false false [],
                TreeNode.mk "b" "b" false 3 1 false false []] 10)).tail) ∧
    ∀ w ∈ claimWidths 2 10 9 (keptNodes 2 [TreeNode.mk "a" "a" false 5 0 false false [],
        TreeNode.mk "b" "b" false 3 1 false false []] 10),
      w ≤ (claimWidths 2 10 9 (keptNodes 2 [TreeNode.mk "a" "a" false 5 0 false false [],
        TreeNode.mk "b" "b" false 3 1 false false []] 10)).headD 0 :=
  icicle_cell_width_formula 2
    [TreeNode.mk "a" "a" false 5 0 false false [], TreeNode.mk "b" "b" false 3 1 false false []]
    0 10 9 (by decide) (by decide)
    (fun h => absurd (congrArg List.length h) (by decide)) (by decide)

theorem icicle_dropped_plus_kept_witness :
    ((buildLevelCells 12 [TreeNode.mk "a" "a" true 100 0 false false [],
          TreeNode.mk "b" "b" true 1 0 false false []] 0 18 101).2
        + (buildLevelCells 12 [TreeNode.mk "a" "a" true 100 0 false false [],
          TreeNode.mk "b" "b" true 1 0 false false []] 0 18 101).1.length
      = (filterChanged [TreeNode.mk "a" "a" true 100 0 false false [],
          TreeNode.mk "b" "b" true 1 0 false false []]).length) ∧
    (18 < (filterChanged [TreeNode.mk "a" "a" true 100 0 false false [],
          TreeNode.mk "b" "b" true 1 0 false false []]).length * 12 →
      (buildLevelCells 12 [TreeNode.mk "a" "a" true 100 0 false false [],
          TreeNode.mk "b" "b" true 1 0 false false []] 0 18 101).1.map IcicleCell.Path
          = ((sortByTotalDesc (filterChanged [TreeNode.mk "a" "a" true 100 0 false false [],
              TreeNode.mk "b" "b" true 1 0 false false []])).take (18 / 12)).map TreeNode.Path ∧
        (buildLevelCells 12 [TreeNode.mk "a" "a" true 100 0 false false [],
            TreeNode.mk "b" "b" true 1 0 false false []] 0 18 101).2
          = (filterChanged [TreeNode.mk "a" "a" true 100 0 false false [],
              TreeNode.mk "b" "b" true 1 0 false false []]).length - 18 / 12) ∧
    (18 / 12 = 0 →
      (buildLevelCells 12 [TreeNode.mk "a" "a" true 100 0 false false [],
          TreeNode.mk "b" "b" true 1 0 false false []] 0 18 101).1 = [] ∧
      (buildLevelCells 12 [TreeNode.mk "a" "a" true 100 0 false false [],
          TreeNode.mk "b" "b" true 1 0 false false []] 0 18 101).2
        = (filterChanged [TreeNode.mk "a" "a" true 100 0 false false [],
            TreeNode.mk "b" "b" true 1 0 false false []]).length) :=
  icicle_dropped_plus_kept 12
    [TreeNode.mk "a" "a" true 100 0 false false [], TreeNode.mk "b" "b" true 1 0 false false []]
    0 18 101 (by decide) (by decide)

/-! ## Truncation lemmas -/

theorem lastDotIdx_lt_length (cs : List Char) (i : Nat) (h : lastDotIdx cs = some i) :
    i < cs.length := by
  induction cs generalizing i with
  | nil => simp [lastDotIdx] at h
  | cons c cs ih =>
    simp only [lastDotIdx] at h
    cases hrec : lastDotIdx cs with
    | some j =>
      rw [hrec] at h
      simp at h
      have := ih j hrec
      simp
      omega
    | none =>
      rw [hrec] at h
      by_cases hc : c = '.'
      · simp [hc] at h
        simp
        omega
      · simp [hc] at h

theorem truncCore_small (cs : List Char) (n : Nat) (hn : n ≤ 2) :
    truncCore cs n = cs.take n := by
  unfold truncCore
  rw [if_pos hn]

theorem truncCore_ext (cs : List Char) (n i : Nat) (hn : 2 < n) (hlt : n < cs.length)
    (hdot : lastDotIdx cs = some i) (hi : 0 < i) (hfit : 3 + (cs.length - i) ≤ n) :
    truncCore cs n = cs.take (n - 1 - (cs.length - i)) ++ '…' :: cs.drop i := by
  unfold truncCore
  rw [if_neg (by omega), hdot]
  simp only [hi, if_true, reduceIte]
  have hext : (cs.drop i).length = cs.length - i := List.length_drop i cs
  rw [if_pos (by omega)]
  have htake : (cs.take i).take (n - 1 - (cs.drop i).length) = cs.take (n - 1 - (cs.length - i)) := by
    rw [List.take_take, hext]
    congr 1
    have hile := lastDotIdx_lt_length cs i hdot
    omega
  rw [htake]

theorem truncCore_plain (cs : List Char) (n : Nat) (hn : 2 < n)
    (hmiss : ∀ i, lastDotIdx cs = some i → i = 0 ∨ n < 3 + (cs.length - i)) :
    truncCore cs n = cs.take (n - 1) ++ ['…'] := by
  unfold truncCore
  rw [if_neg (by omega)]
  cases hdot : lastDotIdx cs with
  | none => rfl
  | some i =>
    rcases hmiss i hdot with hz | hbig
    · subst hz
      simp
    · have hext : (cs.drop i).length = cs.length - i := List.length_drop i cs
      by_cases hi : 0 < i
      · simp only [hi, if_true, reduceIte]
        rw [if_neg (by omega)]
      · simp [hi]

theorem truncCore_length (cs : List Char) (n : Nat) (hlt : n < cs.length) :
    (truncCore cs n).length = n := by
  by_cases hn : n ≤ 2
  · rw [truncCore_small cs n hn, List.length_take]
    omega
  · cases hdot : lastDotIdx cs with
    | none =>
      rw [truncCore_plain cs n (by omega) (by intro i hi; rw [hdot] at hi; cases hi)]
      simp [List.length_take]
      omega
    | some i =>
      have hile := lastDotIdx_lt_length cs i hdot
      by_cases hi : 0 < i
      · by_cases hfit : 3 + (cs.length - i) ≤ n
        · rw [truncCore_ext cs n i (by omega) hlt hdot hi hfit]
          simp [List.length_take, List.length_drop]
          omega
        · rw [truncCore_plain cs n (by omega)
            (by intro j hj; rw [hdot] at hj; cases hj; right; omega)]
          simp [List.length_take]
          omega
      · rw [truncCore_plain cs n (by omega)
          (by intro j hj; rw [hdot] at hj; cases hj; left; omega)]
        simp [List.length_take]
        omega

theorem string_length_data (s : String) : s.length = s.data.length := rfl

theorem truncate_eq_core (s : String) (w : Nat) (h : w < s.length) (hw : w ≠ 0)
    (hnd : s.data.getLast? ≠ some '/') :
    truncate s w = String.mk (truncCore s.data w) := by
  unfold truncate
  rw [if_neg hw, if_neg (by omega), if_neg hnd]

theorem truncate_eq_core_dir (s : String) (w : Nat) (h : w < s.length) (hw : w ≠ 0)
    (hd : s.data.getLast? = some '/') :
    truncate s w = String.mk (truncCore s.data.dropLast (w - 1) ++ ['/']) := by
  unfold truncate
  rw [if_neg hw, if_neg (by omega), if_pos hd]

/-- C7 (amended): behaviour of `truncate` on a label longer than the
width.  The result always has exactly `width` characters.  For labels not
ending in `'/'`: at width ≤ 2 the label is cut to the width with no
ellipsis; at width ≥ 3 the extension — the substring from the last `'.'`,
provided that dot is not the first character — is kept whenever two name
characters plus the ellipsis plus the extension fit, giving
`width−1−extLen` name characters, `'…'`, and the extension; otherwise the
result is `width−1` characters plus `'…'`.  For labels ending in `'/'` the
separator is stripped, the same rules apply with budget `width−1`, and the
separator is re-appended. -/
theorem truncate_behavior (s : String) (w : Nat) (h : w < s.length) :
    (truncate s w).length = w ∧
    (s.data.getLast? ≠ some '/' →
      (w ≤ 2 → truncate s w = String.mk (s.data.take w)) ∧
      (2 < w → ∀ i, lastDotIdx s.data = some i → 0 < i → 3 + (s.data.length - i) ≤ w →
        truncate s w
          = String.mk (s.data.take (w - 1 - (s.data.length - i)) ++ '…' :: s.data.drop i)) ∧
      (2 < w → (∀ i, lastDotIdx s.data = some i → i = 0 ∨ w < 3 + (s.data.length - i)) →
        truncate s w = String.mk (s.data.take (w - 1) ++ ['…']))) ∧
    (s.data.getLast? = some '/' → 1 ≤ w →
      (w - 1 ≤ 2 → truncate s w = String.mk (s.data.dropLast.take (w - 1) ++ ['/'])) ∧
      (2 < w - 1 → ∀ i, lastDotIdx s.data.dropLast = some i → 0 < i →
          3 + (s.data.dropLast.length - i) ≤ w - 1 →
        truncate s w
          = String.mk (s.data.dropLast.take (w - 1 - 1 - (s.data.dropLast.length - i))
              ++ '…' :: s.data.dropLast.drop i ++ ['/'])) ∧
      (2 < w - 1 → (∀ i, lastDotIdx s.data.dropLast = some i →
          i = 0 ∨ w - 1 < 3 + (s.data.dropLast.length - i)) →
        truncate s w = String.mk (s.data.dropLast.take (w - 1 - 1) ++ '…' :: ['/']))) := by
  have hlen : s.length = s.data.length := rfl
  by_cases hw : w = 0
  · subst hw
    refine ⟨rfl, ?_, ?_⟩
    · intro hnd
      refine ⟨fun _ => ?_, fun h3 => absurd h3 (by omega), fun h3 => absurd h3 (by omega)⟩
      rfl
    · intro hd h1
      exact absurd h1 (by omega)
  · by_cases hd : s.data.getLast? = some '/'
    · have hne : s.data ≠ [] := by
        intro hnil
        rw [hnil] at hd
        simp at hd
      have hdl : s.data.dropLast.length = s.data.length - 1 := List.length_dropLast _
      have hbud : w - 1 < s.data.dropLast.length := by
        rw [hdl]
        omega
      rw [truncate_eq_core_dir s w h hw hd]
      refine ⟨?_, fun hnd => absurd hd hnd, fun _ _ => ⟨?_, ?_, ?_⟩⟩
      · show (truncCore s.data.dropLast (w - 1) ++ ['/']).length = w
        rw [List.length_append, truncCore_length _ _ hbud]
        simp
        omega
      · intro hsmall
        rw [truncCore_small _ _ hsmall]
      · intro h3 i hdot hi hfit
        rw [truncCore_ext _ _ i h3 hbud hdot hi hfit]
      · intro h3 hmiss
        rw [truncCore_plain _ _ h3 hmiss]
        simp
    · rw [truncate_eq_core s w h hw hd]
      refine ⟨?_, fun _ => ⟨?_, ?_, ?_⟩, fun hdd => absurd hdd hd⟩
      · show (truncCore s.data w).length = w
        exact truncCore_length _ _ (by omega)
      · intro hsmall
        rw [truncCore_small _ _ hsmall]
      · intro h3 i hdot hi hfit
        rw [truncCore_ext _ _ i h3 (by omega) hdot hi hfit]
      · intro h3 hmiss
        rw [truncCore_plain _ _ h3 hmiss]

/-- C7 counterexample: at width 2 the label `"abc"` is cut to `"ab"` with
no ellipsis, not to the claimed `"a…"` (width−1 characters plus an
ellipsis). -/
theorem truncate_counterexample_small_width :
    truncate "abc" 2 = "ab" ∧ truncate "abc" 2 ≠ "a…" := by
  decide

theorem truncate_behavior_witness :
    (truncate "verylongname.go" 9).length = 9 ∧
    truncate "verylongname.go" 9
      = String.mk ("verylongname.go".data.take
          (9 - 1 - ("verylongname.go".data.length - 12)) ++ '…' :: "verylongname.go".data.drop 12) :=
  ⟨(truncate_behavior "verylongname.go" 9 (by decide)).1,
    ((truncate_behavior "verylongname.go" 9 (by decide)).2.1 (by decide)).2.1
      (by decide) 12 (by decide) (by decide) (by decide)⟩

/-! ## Chain collapsing lemmas -/

/-- `collapseChain` is the loop: one `chainStep`, then recurse. -/
theorem collapseChain_eq_step (c : TreeNode) :
    collapseChain c = match chainStep c with
      | some c' => collapseChain c'
      | none => c := by
  unfold collapseChain
  cases hsize : nodeSize c with
  | zero =>
    exfalso
    rw [nodeSize_eq] at hsize
    omega
  | succ k =>
    rw [collapseChainFuel]
    cases hs : chainStep c with
    | none => rfl
    | some c' =>
      simp only []
      have hlt := chainStep_size hs
      rw [hsize] at hlt
      exact collapseChain_fuel (by omega)

theorem chainStep_some (c c' : TreeNode) (h : chainStep c = some c') :
    ∃ g, c.Children = [g] ∧ c.IsDir = true ∧ g.IsDir = true ∧ c' = mergeNode c g := by
  unfold chainStep at h
  cases hc : c.Children with
  | nil => rw [hc] at h; cases h
  | cons g gs =>
    cases gs with
    | cons _ _ => rw [hc] at h; cases h
    | nil =>
      rw [hc] at h
      simp only [] at h
      by_cases hd : (c.IsDir && g.IsDir) = true
      · rw [if_pos hd] at h
        cases h
        rcases Bool.and_eq_true_iff.mp hd with ⟨h1, h2⟩
        exact ⟨g, rfl, h1, h2, rfl⟩
      · rw [if_neg hd] at h
        cases h

theorem nodeSize_le_of_mem {c : TreeNode} {cs : List TreeNode} (h : c ∈ cs) :
    nodeSize c ≤ nodeSizeL cs := by
  induction cs with
  | nil => cases h
  | cons a l ih =>
    rcases List.mem_cons.mp h with rfl | h
    · simp only [nodeSizeL]
      omega
    · have := ih h
      simp only [nodeSizeL]
      omega

theorem mem_collapseL {x : TreeNode} {cs : List TreeNode} :
    x ∈ collapseL cs ↔ ∃ c ∈ cs, x = collapseChain (collapse c) := by
  induction cs with
  | nil => simp [collapseL]
  | cons a l ih =>
    simp only [collapseL, List.mem_cons, ih]
    constructor
    · rintro (rfl | ⟨c, hc, rfl⟩)
      · exact ⟨a, Or.inl rfl, rfl⟩
      · exact ⟨c, Or.inr hc, rfl⟩
    · rintro ⟨c, rfl | hc, rfl⟩
      · exact Or.inl rfl
      · exact Or.inr ⟨c, hc, rfl⟩

theorem collapsed_children {t : TreeNode} (h : Collapsed t) :
    ∀ c ∈ t.Children, chainStep c = none ∧ Collapsed c := by
  cases h with
  | mk _ h1 h2 => exact fun c hc => ⟨h1 c hc, h2 c hc⟩

/-- The while loop ends only when its guard fails. -/
theorem chainStep_collapseChain (c : TreeNode) : chainStep (collapseChain c) = none := by
  suffices h : ∀ n (c : TreeNode), nodeSize c ≤ n → chainStep (collapseChain c) = none from
    h (nodeSize c) c (le_refl _)
  intro n
  induction n using Nat.strong_induction_on with
  | _ n ih =>
    intro c hc
    rw [collapseChain_eq_step]
    cases hs : chainStep c with
    | none => exact hs
    | some c' =>
      simp only []
      have hlt := chainStep_size hs
      exact ih (nodeSize c') (by omega) c' (le_refl _)

theorem collapsed_collapseChain {c : TreeNode} (h : Collapsed c) :
    Collapsed (collapseChain c) := by
  suffices hs : ∀ n (c : TreeNode), nodeSize c ≤ n → Collapsed c →
      Collapsed (collapseChain c) from hs (nodeSize c) c (le_refl _) h
  intro n
  induction n using Nat.strong_induction_on with
  | _ n ih =>
    intro c hcn h
    rw [collapseChain_eq_step]
    cases hs : chainStep c with
    | none => exact h
    | some c' =>
      simp only []
      have hlt := chainStep_size hs
      obtain ⟨g, hcs, hcd, hgd, rfl⟩ := chainStep_some c c' hs
      have hg : chainStep g = none ∧ Collapsed g :=
        collapsed_children h g (by rw [hcs]; simp)
      have hc' : Collapsed (mergeNode c g) := by
        refine Collapsed.mk _ ?_ ?_ <;> intro x hx <;>
          have hxg : x ∈ g.Children := by simpa [mergeNode, TreeNode.Children] using hx
        · exact (collapsed_children hg.2 x hxg).1
        · exact (collapsed_children hg.2 x hxg).2
      exact ih (nodeSize (mergeNode c g)) (by omega) _ (le_refl _) hc'

theorem collapse_children_eq (n p : String) (d : Bool) (a del : Nat) (b u : Bool)
    (cs : List TreeNode) :
    collapse (TreeNode.mk n p d a del b u cs) = TreeNode.mk n p d a del b u (collapseL cs) := by
  rfl

theorem collapsed_collapse (t : TreeNode) : Collapsed (collapse t) := by
  suffices hs : ∀ n (t : TreeNode), nodeSize t ≤ n → Collapsed (collapse t) from
    hs (nodeSize t) t (le_refl _)
  intro n
  induction n using Nat.strong_induction_on with
  | _ n ih =>
    intro t htn
    cases t with
    | mk nm p d a del b u cs =>
      rw [collapse_children_eq]
      refine Collapsed.mk _ ?_ ?_ <;> intro x hx <;> simp only [TreeNode.Children] at hx <;>
        obtain ⟨c, hc, rfl⟩ := mem_collapseL.mp hx
      · exact chainStep_collapseChain _
      · have hsize : nodeSize c < n := by
          have h1 := nodeSize_le_of_mem hc
          rw [nodeSize_eq] at htn
          simp only [TreeNode.Children] at htn
          omega
        exact collapsed_collapseChain (ih (nodeSize c) hsize c (le_refl _))

theorem collapseChain_of_none {c : TreeNode} (h : chainStep c = none) :
    collapseChain c = c := by
  rw [collapseChain_eq_step, h]

theorem collapseL_eq_of (cs : List TreeNode) (h : ∀ c ∈ cs, collapseChain (collapse c) = c) :
    collapseL cs = cs := by
  induction cs with
  | nil => rfl
  | cons a l ih =>
    simp only [collapseL]
    rw [h a (by simp), ih fun c hc => h c (by simp [hc])]

theorem collapse_of_collapsed {t : TreeNode} (h : Collapsed t) : collapse t = t := by
  suffices hs : ∀ n (t : TreeNode), nodeSize t ≤ n → Collapsed t → collapse t = t from
    hs (nodeSize t) t (le_refl _) h
  intro n
  induction n using Nat.strong_induction_on with
  | _ n ih =>
    intro t htn h
    cases t with
    | mk nm p d a del b u cs =>
      rw [collapse_children_eq]
      have hch := collapsed_children h
      simp only [TreeNode.Children] at hch
      have hLL : collapseL cs = cs := by
        apply collapseL_eq_of
        intro c hc
        have hc2 := hch c hc
        have hsize : nodeSize c < n := by
          have h1 := nodeSize_le_of_mem hc
          rw [nodeSize_eq] at htn
          simp only [TreeNode.Children] at htn
          omega
        rw [ih (nodeSize c) hsize c (le_refl _) hc2.2]
        exact collapseChain_of_none hc2.1
      rw [hLL]

/-- C6: chain collapsing is idempotent — `CollapseSingleChildPaths` applied
twice produces the same tree as applying it once, for every tree. -/
theorem collapse_idempotent (t : TreeNode) : collapse (collapse t) = collapse t :=
  collapse_of_collapsed (collapsed_collapse t)

/-- C5: the merge loop of `CollapseSingleChildPaths` rewrites a directory
with a single directory child into the merged node (name `parent/child`,
grandchild's path and children, per `mergeNode`), never merges a node
whose single child is a file, and concretely: in the tree for
`[("lib/a.go",10,0), ("lib/b.go",10,0), ("lib/sub/c.go",10,0)]` the node
`"sub"` survives collapsing un-merged, while for `[("a/b/c.go",1,0)]` the
chain `a → b` of directories merges into a node named `"a/b"` carrying the
grandchild's path and children. -/
theorem collapse_merges_only_dir_chains :
    (∀ c f : TreeNode, c.Children = [f] → f.IsDir = false → collapseChain c = c) ∧
    (∀ c g : TreeNode, c.IsDir = true → c.Children = [g] → g.IsDir = true →
      collapseChain c = collapseChain (mergeNode c g)) ∧
    (findNode "lib/sub" (collapse (calcTotals (buildTreeFromFiles
        [⟨"lib/a.go", 10, 0, false, false⟩, ⟨"lib/b.go", 10, 0, false, false⟩,
          ⟨"lib/sub/c.go", 10, 0, false, false⟩])))).map TreeNode.Name = some "sub" ∧
    (collapse (calcTotals (buildTreeFromFiles
        [⟨"a/b/c.go", 1, 0, false, false⟩]))).Children.map TreeNode.Name = ["a/b"] ∧
    (collapse (calcTotals (buildTreeFromFiles
        [⟨"a/b/c.go", 1, 0, false, false⟩]))).Children.map TreeNode.Path = ["a/b"] ∧
    (collapse (calcTotals (buildTreeFromFiles
        [⟨"a/b/c.go", 1, 0, false, false⟩]))).Children.map
        (fun nd => nd.Children.map TreeNode.Name) = [["c.go"]] := by
  refine ⟨?_, ?_, by decide, by decide, by decide, by decide⟩
  · intro c f h1 h2
    apply collapseChain_of_none
    unfold chainStep
    rw [h1]
    simp [h2]
  · intro c g h1 h2 h3
    conv_lhs => rw [collapseChain_eq_step]
    have : chainStep c = some (mergeNode c g) := by
      unfold chainStep
      rw [h2]
      simp [h1, h3]
    rw [this]

theorem collapse_merges_only_dir_chains_witness :
    collapseChain (TreeNode.mk "d" "d" true 1 0 false false
        [TreeNode.mk "f" "d/f" false 1 0 false false []])
      = TreeNode.mk "d" "d" true 1 0 false false
        [TreeNode.mk "f" "d/f" false 1 0 false false []] ∧
    collapseChain (TreeNode.mk "a" "a" true 1 0 false false
        [TreeNode.mk "b" "a/b" true 1 0 false false []])
      = collapseChain (mergeNode
          (TreeNode.mk "a" "a" true 1 0 false false
            [TreeNode.mk "b" "a/b" true 1 0 false false []])
          (TreeNode.mk "b" "a/b" true 1 0 false false [])) :=
  ⟨collapse_merges_only_dir_chains.1 _ _ rfl rfl,
    collapse_merges_only_dir_chains.2.1 _ _ rfl rfl rfl⟩

/-! ## Render-level theorems -/

/-- C8: with an empty record set, or when no node survives the root-level
filtering (for instance when the usable width is below the minimum cell
width so every root node is dropped and the level list stays empty),
`Render` emits exactly the single line `"No changes"` — no grid, footer or
summary. -/
theorem icicle_render_no_changes (records : List FileStat) (cfg : IcicleConfig) (uc : Bool)
    (h : records = [] ∨ (buildLevels cfg (mkStats records)).1 = []) :
    icicleRender cfg uc (mkStats records) = ["No changes"] := by
  unfold icicleRender icicleSpans
  rcases h with rfl | hlv
  · rw [if_pos (show (mkStats ([] : List FileStat)).TotalFiles = 0 from rfl)]
    cases uc <;> rfl
  · by_cases h0 : (mkStats records).TotalFiles = 0
    · rw [if_pos h0]
      cases uc <;> rfl
    · rw [if_neg h0, if_pos (by rw [hlv]; rfl)]
      cases uc <;> rfl

theorem icicle_render_no_changes_witness :
    icicleRender ⟨40, 4, 12⟩ false (mkStats []) = ["No changes"] :=
  icicle_render_no_changes [] ⟨40, 4, 12⟩ false (Or.inl rfl)

/-! ## Color-independence lemmas (C9)

The two box styles the renderer can use (Unicode with color on, ASCII with
color off) consist of single-character strings only, and no width
computation in the renderer reads a color code: the visible width of every
row is therefore the same under both settings. -/

theorem oneWide_default : oneWide DefaultBoxStyle := by
  unfold oneWide
  decide

theorem oneWide_ascii : oneWide ASCIIBoxStyle := by
  unfold oneWide
  decide

theorem rowVisLen_append (xs ys : List Span) :
    rowVisLen (xs ++ ys) = rowVisLen xs + rowVisLen ys := by
  simp [rowVisLen]

theorem rowVisLen_map_text {α : Type} (l : List α) (f : α → String) :
    rowVisLen (l.map fun x => Span.text (f x)) = (l.map fun x => (f x).length).sum := by
  unfold rowVisLen
  rw [List.map_map]
  rfl

theorem sum_map_ones {α : Type} (l : List α) (f : α → Nat) (h : ∀ x ∈ l, f x = 1) :
    (l.map f).sum = l.length := by
  induction l with
  | nil => rfl
  | cons a l ih =>
    simp only [List.map_cons, List.sum_cons, List.length_cons, h a (by simp)]
    rw [ih fun x hx => h x (by simp [hx])]
    omega

theorem borderRow_visLen (w : Nat) (bnd : Nat → Bool) (a b c d : String)
    (ha : a.length = 1) (hb : b.length = 1) (hc : c.length = 1) (hd : d.length = 1) :
    rowVisLen (borderRow w bnd a b c d) = w - 2 + 2 := by
  unfold borderRow
  rw [rowVisLen_append, rowVisLen_append, rowVisLen_map_text]
  rw [sum_map_ones _ _ (by intro x _; by_cases hx : bnd x <;> simp [hx, hb, hc])]
  simp [rowVisLen, Span.visLen, ha, hd]
  omega

theorem separatorRow_visLen (s : BoxStyle) (w : Nat) (above below : Nat → Bool)
    (hs : oneWide s) :
    rowVisLen (separatorRow s w above below) = w - 2 + 2 := by
  obtain ⟨h1, h2, h3, h4, h5, h6, h7, h8, h9, h10, h11⟩ := hs
  unfold separatorRow
  rw [rowVisLen_append, rowVisLen_append, rowVisLen_map_text]
  rw [sum_map_ones _ _ ?_]
  · simp [rowVisLen, Span.visLen, h5, h6]
    omega
  · intro x _
    cases ha : above x <;> cases hb : below x <;> simp [ha, hb, h7, h8, h9, h10]

theorem gapFill_visLen_eq (s1 s2 : BoxStyle) (hv : s1.Vertical.length = s2.Vertical.length)
    (pb : Nat → Bool) (start count : Nat) :
    rowVisLen (gapFill s1 pb start count) = rowVisLen (gapFill s2 pb start count) := by
  unfold gapFill
  rw [rowVisLen_map_text, rowVisLen_map_text]
  apply congrArg
  apply List.map_congr_left
  intro p _
  by_cases hp : pb p <;> simp [hp, hv]

theorem contentCells_single (s : BoxStyle) (pb : Nat → Bool) (c : IcicleCell) (pos : Nat) :
    contentCells s pb [c] pos
      = (gapFill s pb pos (c.Start + 1 - pos) ++ (formatCentered c (cellWidth c) 1).1,
        c.Start + 1 + (formatCentered c (cellWidth c) 1).2) := rfl

theorem contentCells_cons (s : BoxStyle) (pb : Nat → Bool) (c c2 : IcicleCell)
    (rest2 : List IcicleCell) (pos : Nat) :
    contentCells s pb (c :: c2 :: rest2) pos
      = (gapFill s pb pos (c.Start + 1 - pos) ++ (formatCentered c (cellWidth c) 1).1
            ++ [Span.text s.Vertical]
            ++ (contentCells s pb (c2 :: rest2)
                (c.Start + 1 + (formatCentered c (cellWidth c) 1).2 + 1)).1,
          (contentCells s pb (c2 :: rest2)
            (c.Start + 1 + (formatCentered c (cellWidth c) 1).2 + 1)).2) := rfl

theorem contentCells_visLen_eq (s1 s2 : BoxStyle)
    (hv : s1.Vertical.length = s2.Vertical.length) (pb : Nat → Bool) :
    ∀ (cells : List IcicleCell) (pos : Nat),
      rowVisLen (contentCells s1 pb cells pos).1 = rowVisLen (contentCells s2 pb cells pos).1 ∧
      (contentCells s1 pb cells pos).2 = (contentCells s2 pb cells pos).2 := by
  intro cells
  induction cells with
  | nil => intro pos; exact ⟨rfl, rfl⟩
  | cons c rest ih =>
    intro pos
    cases rest with
    | nil =>
      rw [contentCells_single, contentCells_single]
      exact ⟨by rw [rowVisLen_append, rowVisLen_append, gapFill_visLen_eq s1 s2 hv], rfl⟩
    | cons c2 rest2 =>
      rw [contentCells_cons, contentCells_cons]
      obtain ⟨ihv, ihp⟩ := ih (c.Start + 1 + (formatCentered c (cellWidth c) 1).2 + 1)
      constructor
      · rw [rowVisLen_append, rowVisLen_append, rowVisLen_append,
          rowVisLen_append, rowVisLen_append, rowVisLen_append,
          gapFill_visLen_eq s1 s2 hv, ihv]
        simp [rowVisLen, Span.visLen, hv]
      · exact ihp

theorem contentRow_visLen_eq (s1 s2 : BoxStyle)
    (h1 : s1.Vertical.length = s2.Vertical.length) (w : Nat) (pb : Nat → Bool)
    (level : List IcicleCell) :
    rowVisLen (contentRow s1 w pb level) = rowVisLen (contentRow s2 w pb level) := by
  unfold contentRow
  obtain ⟨hv, hp⟩ := contentCells_visLen_eq s1 s2 h1 pb level 1
  rw [rowVisLen_append, rowVisLen_append, rowVisLen_append,
    rowVisLen_append, rowVisLen_append, rowVisLen_append, hv, hp,
    gapFill_visLen_eq s1 s2 h1]
  simp [rowVisLen, Span.visLen, h1]

theorem footerCells_cons (s : BoxStyle) (c c2 : IcicleCell) (rest2 : List IcicleCell)
    (pos : Nat) :
    footerCells s (c :: c2 :: rest2) pos
      = (((List.range' pos (c.Start + 1 - pos)).map fun _ => Span.text " ") ++ statsSpans c
            ++ [Span.text s.Vertical]
            ++ (footerCells s (c2 :: rest2) (c.Start + 1 + (cellWidth c - 1) + 1)).1,
          (footerCells s (c2 :: rest2) (c.Start + 1 + (cellWidth c - 1) + 1)).2) := rfl

theorem footerCells_visLen_eq (s1 s2 : BoxStyle)
    (hv : s1.Vertical.length = s2.Vertical.length) :
    ∀ (leaves : List IcicleCell) (pos : Nat),
      rowVisLen (footerCells s1 leaves pos).1 = rowVisLen (footerCells s2 leaves pos).1 ∧
      (footerCells s1 leaves pos).2 = (footerCells s2 leaves pos).2 := by
  intro leaves
  induction leaves with
  | nil => intro pos; exact ⟨rfl, rfl⟩
  | cons c rest ih =>
    intro pos
    cases rest with
    | nil => exact ⟨rfl, rfl⟩
    | cons c2 rest2 =>
      rw [footerCells_cons, footerCells_cons]
      obtain ⟨ihv, ihp⟩ := ih (c.Start + 1 + (cellWidth c - 1) + 1)
      constructor
      · rw [rowVisLen_append, rowVisLen_append, rowVisLen_append,
          rowVisLen_append, rowVisLen_append, rowVisLen_append, ihv]
        simp [rowVisLen, Span.visLen, hv]
      · exact ihp

theorem footerRow_visLen_eq (s1 s2 : BoxStyle)
    (h1 : s1.Vertical.length = s2.Vertical.length) (w : Nat) (leaves : List IcicleCell) :
    rowVisLen (footerRow s1 w leaves) = rowVisLen (footerRow s2 w leaves) := by
  unfold footerRow
  obtain ⟨hv, hp⟩ := footerCells_visLen_eq s1 s2 h1 leaves 1
  rw [rowVisLen_append, rowVisLen_append, rowVisLen_append,
    rowVisLen_append, rowVisLen_append, rowVisLen_append, hv, hp]
  simp [rowVisLen, Span.visLen, h1]

theorem flatMap_congr_mem {α β : Type} (l : List α) (f g : α → List β)
    (h : ∀ a ∈ l, f a = g a) : l.flatMap f = l.flatMap g := by
  induction l with
  | nil => rfl
  | cons a t ih =>
    simp only [List.flatMap_cons]
    rw [h a (by simp), ih fun x hx => h x (by simp [hx])]

theorem gridRows_visLen_eq (s1 s2 : BoxStyle) (hs1 : oneWide s1) (hs2 : oneWide s2)
    (cfg : IcicleConfig) (stats : DiffStats) (levels : List (List IcicleCell))
    (dropped : Nat) :
    (gridRows s1 cfg stats levels dropped).map rowVisLen
      = (gridRows s2 cfg stats levels dropped).map rowVisLen := by
  have hv : s1.Vertical.length = s2.Vertical.length := by
    obtain ⟨_, _, _, _, _, _, _, _, _, _, h⟩ := hs1
    obtain ⟨_, _, _, _, _, _, _, _, _, _, h'⟩ := hs2
    omega
  obtain ⟨a1, b1, c1, d1, e1, f1, g1, i1, j1, k1, l1⟩ := hs1
  obtain ⟨a2, b2, c2, d2, e2, f2, g2, i2, j2, k2, l2⟩ := hs2
  unfold gridRows
  simp only [List.map_append, List.map_flatMap, List.map_cons, List.map_nil]
  rw [borderRow_visLen _ _ _ _ _ _ a1 g1 k1 b1, borderRow_visLen _ _ _ _ _ _ a2 g2 k2 b2]
  rw [borderRow_visLen _ _ _ _ _ _ c1 i1 k1 d1, borderRow_visLen _ _ _ _ _ _ c2 i2 k2 d2]
  rw [separatorRow_visLen s1 _ _ _ ⟨a1, b1, c1, d1, e1, f1, g1, i1, j1, k1, l1⟩,
    separatorRow_visLen s2 _ _ _ ⟨a2, b2, c2, d2, e2, f2, g2, i2, j2, k2, l2⟩]
  rw [footerRow_visLen_eq s1 s2 hv]
  rw [flatMap_congr_mem _ _ _ ?_]
  intro depth _
  by_cases hd : depth + 1 < levels.length
  · simp only [hd, if_true, reduceIte, List.map_append, List.map_cons, List.map_nil]
    rw [contentRow_visLen_eq s1 s2 hv,
      separatorRow_visLen s1 _ _ _ ⟨a1, b1, c1, d1, e1, f1, g1, i1, j1, k1, l1⟩,
      separatorRow_visLen s2 _ _ _ ⟨a2, b2, c2, d2, e2, f2, g2, i2, j2, k2, l2⟩]
  · simp only [hd, if_false, reduceIte, List.map_append, List.map_cons, List.map_nil]
    rw [contentRow_visLen_eq s1 s2 hv]

/-- C9: for every stats value and configuration, the icicle renderer with
color enabled (Unicode box style, ANSI codes kept) and with color disabled
(ASCII box style, codes dropped) produces the same number of rows with the
same visible width row for row: `rowVisLen` counts only text spans, i.e.
characters left after stripping the ANSI codes the `.code` spans carry. -/
theorem icicle_color_layout_independent (cfg : IcicleConfig) (stats : DiffStats) :
    (icicleSpans cfg DefaultBoxStyle stats).map rowVisLen
        = (icicleSpans cfg ASCIIBoxStyle stats).map rowVisLen ∧
    (icicleRender cfg true stats).length = (icicleRender cfg false stats).length := by
  have hmain : (icicleSpans cfg DefaultBoxStyle stats).map rowVisLen
      = (icicleSpans cfg ASCIIBoxStyle stats).map rowVisLen := by
    unfold icicleSpans
    by_cases h0 : stats.TotalFiles = 0
    · rw [if_pos h0, if_pos h0]
    · rw [if_neg h0, if_neg h0]
      by_cases h1 : ((buildLevels cfg stats).1.isEmpty
          || ((buildLevels cfg stats).1.headD []).isEmpty) = true
      · rw [if_pos h1, if_pos h1]
      · rw [if_neg h1, if_neg h1]
        exact gridRows_visLen_eq _ _ oneWide_default oneWide_ascii cfg stats _ _
  refine ⟨hmain, ?_⟩
  unfold icicleRender
  simp only [List.length_map, if_true, if_false, reduceIte]
  have := congrArg List.length hmain
  simpa using this

theorem splitSegs_ne_nil (cs : List Char) : splitSegs cs ≠ [] := by
  cases cs with
  | nil => simp [splitSegs]
  | cons c cs =>
    unfold splitSegs
    by_cases hc : c = '/'
    · simp [hc]
    · simp only [hc, if_false, reduceIte]
      cases h : splitSegs cs with
      | nil => simp
      | cons s ss => simp

theorem joinChars_splitSegs (cs : List Char) : joinChars (splitSegs cs) = cs := by
  induction cs with
  | nil => rfl
  | cons c cs ih =>
    unfold splitSegs
    by_cases hc : c = '/'
    · subst hc
      rw [if_pos rfl]
      cases h : splitSegs cs with
      | nil => exact absurd h (splitSegs_ne_nil cs)
      | cons s ss =>
        rw [h] at ih
        show joinChars ([] :: s :: ss) = '/' :: cs
        unfold joinChars
        rw [ih]
        rfl
    · rw [if_neg hc]
      cases h : splitSegs cs with
      | nil => exact absurd h (splitSegs_ne_nil cs)
      | cons s ss =>
        rw [h] at ih
        cases ss with
        | nil =>
          show joinChars [c :: s] = c :: cs
          unfold joinChars at ih ⊢
          rw [← ih]
        | cons s2 ss2 =>
          show joinChars ((c :: s) :: s2 :: ss2) = c :: cs
          unfold joinChars at ih ⊢
          rw [← ih]
          rfl

theorem splitSegs_injective : Function.Injective splitSegs := by
  intro a b h
  have := congrArg joinChars h
  rwa [joinChars_splitSegs, joinChars_splitSegs] at this

theorem splitPath_injective : Function.Injective splitPath := by
  intro a b h
  unfold splitPath at h
  have hmk : Function.Injective (fun l : List Char => String.mk l) := by
    intro x y hxy
    cases hxy
    rfl
  have h2 := List.map_injective_iff.mpr hmk h
  have h3 := splitSegs_injective h2
  cases a
  cases b
  simp only [] at h3
  rw [h3]

theorem splitPath_ne_nil (s : String) : splitPath s ≠ [] := by
  unfold splitPath
  intro h
  rw [List.map_eq_nil] at h
  exact splitSegs_ne_nil s.data h

theorem hasChild_eq (name : String) (cs : List TreeNode) :
    hasChild name cs = (findFirst name cs).isSome := by
  induction cs with
  | nil => rfl
  | cons c cs ih =>
    unfold hasChild findFirst
    by_cases h : c.Name = name
    · simp [h]
    · unfold hasChild at ih
      rw [if_neg h, List.any_cons, ← ih]
      simp [h]

theorem okInsert_nil (segs : List String) : okInsert [] segs := by
  cases segs with
  | nil => trivial
  | cons part rest =>
    cases rest with
    | nil => rfl
    | cons _ _ => trivial

theorem insertSegs_cons (f : FileStat) (pre : List String) (part : String)
    (rest : List String) (cs : List TreeNode) :
    insertSegs f pre (part :: rest) cs =
      if hasChild part cs then replaceFirst part (stepFn f pre part rest) cs
      else cs ++ [stepFn f pre part rest
        (TreeNode.mk part (joinPath (pre ++ [part])) (!rest.isEmpty) 0 0 false false [])] := rfl

theorem setLeafFields_Name (f : FileStat) (c : TreeNode) :
    (setLeafFields f c).Name = c.Name := by
  cases c; rfl

theorem setChildren_Name (c : TreeNode) (cs : List TreeNode) :
    (c.setChildren cs).Name = c.Name := by
  cases c; rfl

theorem stepFn_Name (f : FileStat) (pre : List String) (part : String) (rest : List String)
    (c : TreeNode) : (stepFn f pre part rest c).Name = c.Name := by
  unfold stepFn
  by_cases h : rest.isEmpty
  · rw [if_pos h, setLeafFields_Name]
  · rw [if_neg h, setChildren_Name]

theorem findFirst_replaceFirst (name : String) (g : TreeNode → TreeNode)
    (hg : ∀ c, (g c).Name = c.Name) (cs : List TreeNode) :
    findFirst name (replaceFirst name g cs) = (findFirst name cs).map g := by
  induction cs with
  | nil => rfl
  | cons c cs ih =>
    by_cases h : c.Name = name
    · have h1 : replaceFirst name g (c :: cs) = g c :: cs := by
        simp only [replaceFirst, if_pos h]
      rw [h1]
      show (if (g c).Name = name then some (g c) else findFirst name cs)
          = Option.map g (if c.Name = name then some c else findFirst name cs)
      rw [hg c, if_pos h, if_pos h]
      rfl
    · have h1 : replaceFirst name g (c :: cs) = c :: replaceFirst name g cs := by
        simp only [replaceFirst, if_neg h]
      rw [h1]
      show (if c.Name = name then some c else findFirst name (replaceFirst name g cs))
          = Option.map g (if c.Name = name then some c else findFirst name cs)
      rw [if_neg h, if_neg h, ih]

theorem findFirst_replaceFirst_ne (name other : String) (g : TreeNode → TreeNode)
    (hg : ∀ c, (g c).Name = c.Name) (hne : other ≠ name) (cs : List TreeNode) :
    findFirst other (replaceFirst name g cs) = findFirst other cs := by
  induction cs with
  | nil => rfl
  | cons c cs ih =>
    by_cases h : c.Name = name
    · have h1 : replaceFirst name g (c :: cs) = g c :: cs := by
        simp only [replaceFirst, if_pos h]
      rw [h1]
      show (if (g c).Name = other then some (g c) else findFirst other cs)
          = (if c.Name = other then some c else findFirst other cs)
      rw [hg c, h]
      rw [if_neg fun hc => hne hc.symm, if_neg fun hc => hne hc.symm]
    · have h1 : replaceFirst name g (c :: cs) = c :: replaceFirst name g cs := by
        simp only [replaceFirst, if_neg h]
      rw [h1]
      show (if c.Name = other then some c else findFirst other (replaceFirst name g cs))
          = (if c.Name = other then some c else findFirst other cs)
      rw [ih]

theorem findFirst_append_some (name : String) (cs : List TreeNode) (x c : TreeNode)
    (h : findFirst name cs = some c) : findFirst name (cs ++ [x]) = some c := by
  induction cs with
  | nil => cases h
  | cons c0 cs ih =>
    by_cases h0 : c0.Name = name
    · show (if c0.Name = name then some c0 else findFirst name (cs ++ [x])) = some c
      rw [if_pos h0]
      have h' : (if c0.Name = name then some c0 else findFirst name cs) = some c := h
      rw [if_pos h0] at h'
      exact h'
    · show (if c0.Name = name then some c0 else findFirst name (cs ++ [x])) = some c
      rw [if_neg h0]
      have h' : (if c0.Name = name then some c0 else findFirst name cs) = some c := h
      rw [if_neg h0] at h'
      exact ih h'

theorem findFirst_append_none (name : String) (cs : List TreeNode) (x : TreeNode)
    (h : findFirst name cs = none) :
    findFirst name (cs ++ [x]) = if x.Name = name then some x else none := by
  induction cs with
  | nil => rfl
  | cons c0 cs ih =>
    have h' : (if c0.Name = name then some c0 else findFirst name cs) = none := h
    by_cases h0 : c0.Name = name
    · rw [if_pos h0] at h'
      cases h'
    · rw [if_neg h0] at h'
      show (if c0.Name = name then some c0 else findFirst name (cs ++ [x]))
          = if x.Name = name then some x else none
      rw [if_neg h0]
      exact ih h'

theorem sAddL_append (cs ds : List TreeNode) : sAddL (cs ++ ds) = sAddL cs + sAddL ds := by
  induction cs with
  | nil => simp [sAddL]
  | cons c cs ih =>
    show sAdd c + sAddL (cs ++ ds) = sAdd c + sAddL cs + sAddL ds
    rw [ih]
    omega

theorem sDelL_append (cs ds : List TreeNode) : sDelL (cs ++ ds) = sDelL cs + sDelL ds := by
  induction cs with
  | nil => simp [sDelL]
  | cons c cs ih =>
    show sDel c + sDelL (cs ++ ds) = sDel c + sDelL cs + sDelL ds
    rw [ih]
    omega

theorem sAddL_replaceFirst (name : String) (g : TreeNode → TreeNode) (k : Nat)
    (cs : List TreeNode) (c : TreeNode) (hf : findFirst name cs = some c)
    (hg : sAdd (g c) = sAdd c + k) :
    sAddL (replaceFirst name g cs) = sAddL cs + k := by
  induction cs with
  | nil => cases hf
  | cons c0 cs ih =>
    unfold findFirst at hf
    unfold replaceFirst
    by_cases h : c0.Name = name
    · rw [if_pos h] at hf
      cases hf
      rw [if_pos h]
      simp only [sAddL, hg]
      omega
    · rw [if_neg h] at hf
      rw [if_neg h]
      simp only [sAddL, ih hf]
      omega

theorem sDelL_replaceFirst (name : String) (g : TreeNode → TreeNode) (k : Nat)
    (cs : List TreeNode) (c : TreeNode) (hf : findFirst name cs = some c)
    (hg : sDel (g c) = sDel c + k) :
    sDelL (replaceFirst name g cs) = sDelL cs + k := by
  induction cs with
  | nil => cases hf
  | cons c0 cs ih =>
    unfold findFirst at hf
    unfold replaceFirst
    by_cases h : c0.Name = name
    · rw [if_pos h] at hf
      cases hf
      rw [if_pos h]
      simp only [sDelL, hg]
      omega
    · rw [if_neg h] at hf
      rw [if_neg h]
      simp only [sDelL, ih hf]
      omega

theorem sAdd_dir {t : TreeNode} (h : t.IsDir = true) : sAdd t = sAddL t.Children := by
  cases t with
  | mk n p d a del b u cs =>
    simp only [TreeNode.IsDir] at h
    subst h
    rfl

theorem sDel_dir {t : TreeNode} (h : t.IsDir = true) : sDel t = sDelL t.Children := by
  cases t with
  | mk n p d a del b u cs =>
    simp only [TreeNode.IsDir] at h
    subst h
    rfl

theorem sAdd_setChildren_dir {t : TreeNode} (h : t.IsDir = true) (cs : List TreeNode) :
    sAdd (t.setChildren cs) = sAddL cs := by
  cases t with
  | mk n p d a del b u cs0 =>
    simp only [TreeNode.IsDir] at h
    subst h
    rfl

theorem sDel_setChildren_dir {t : TreeNode} (h : t.IsDir = true) (cs : List TreeNode) :
    sDel (t.setChildren cs) = sDelL cs := by
  cases t with
  | mk n p d a del b u cs0 =>
    simp only [TreeNode.IsDir] at h
    subst h
    rfl

/-- Inserting a fresh record under the freshness condition raises the
subtree sums by exactly the record's additions and deletions. -/
theorem insertSegs_sums :
    ∀ (segs : List String), ∀ (cs : List TreeNode) (pre : List String) (f : FileStat),
      segs ≠ [] → okInsert cs segs →
      sAddL (insertSegs f pre segs cs) = sAddL cs + f.Additions ∧
      sDelL (insertSegs f pre segs cs) = sDelL cs + f.Deletions := by
  intro segs
  induction segs with
  | nil => intro cs pre f hne _; exact absurd rfl hne
  | cons part rest ih =>
    intro cs pre f _ hok
    cases rest with
    | nil =>
      have hff : findFirst part cs = none := hok
      have hhc : hasChild part cs = false := by rw [hasChild_eq, hff]; rfl
      rw [insertSegs_cons, if_neg (by rw [hhc]; simp)]
      constructor
      · rw [sAddL_append]
        have hx : sAddL [stepFn f pre part []
            (TreeNode.mk part (joinPath (pre ++ [part])) (!List.isEmpty ([] : List String))
              0 0 false false [])] = f.Additions := by
          simp [stepFn, setLeafFields, sAddL, sAdd]
        rw [hx]
      · rw [sDelL_append]
        have hx : sDelL [stepFn f pre part []
            (TreeNode.mk part (joinPath (pre ++ [part])) (!List.isEmpty ([] : List String))
              0 0 false false [])] = f.Deletions := by
          simp [stepFn, setLeafFields, sDelL, sDel]
        rw [hx]
    | cons r0 r1 =>
      rw [insertSegs_cons]
      cases hff : findFirst part cs with
      | some c =>
        have hok' : c.IsDir = true ∧ okInsert c.Children (r0 :: r1) := by
          have h := hok
          unfold okInsert at h
          rw [hff] at h
          exact h
        have hhc : hasChild part cs = true := by rw [hasChild_eq, hff]; rfl
        rw [if_pos hhc]
        obtain ⟨ihA, ihD⟩ := ih c.Children (pre ++ [part]) f (by simp) hok'.2
        have hstepA : sAdd (stepFn f pre part (r0 :: r1) c) = sAdd c + f.Additions := by
          unfold stepFn
          rw [if_neg (by simp), sAdd_setChildren_dir hok'.1, ihA, ← sAdd_dir hok'.1]
        have hstepD : sDel (stepFn f pre part (r0 :: r1) c) = sDel c + f.Deletions := by
          unfold stepFn
          rw [if_neg (by simp), sDel_setChildren_dir hok'.1, ihD, ← sDel_dir hok'.1]
        exact ⟨sAddL_replaceFirst part _ f.Additions cs c hff hstepA,
          sDelL_replaceFirst part _ f.Deletions cs c hff hstepD⟩
      | none =>
        have hhc : hasChild part cs = false := by rw [hasChild_eq, hff]; rfl
        rw [if_neg (by rw [hhc]; simp)]
        obtain ⟨ihA, ihD⟩ := ih [] (pre ++ [part]) f (by simp) (okInsert_nil _)
        constructor
        · rw [sAddL_append]
          have hx : sAddL [stepFn f pre part (r0 :: r1)
              (TreeNode.mk part (joinPath (pre ++ [part])) (!List.isEmpty (r0 :: r1))
                0 0 false false [])] = f.Additions := by
            unfold stepFn
            rw [if_neg (by simp)]
            show sAdd (TreeNode.setChildren _ (insertSegs f (pre ++ [part]) (r0 :: r1) [])) + 0
                = f.Additions
            rw [sAdd_setChildren_dir (by rfl), ihA]
            show sAddL [] + f.Additions + 0 = f.Additions
            simp [sAddL]
          rw [hx]
        · rw [sDelL_append]
          have hx : sDelL [stepFn f pre part (r0 :: r1)
              (TreeNode.mk part (joinPath (pre ++ [part])) (!List.isEmpty (r0 :: r1))
                0 0 false false [])] = f.Deletions := by
            unfold stepFn
            rw [if_neg (by simp)]
            show sDel (TreeNode.setChildren _ (insertSegs f (pre ++ [part]) (r0 :: r1) [])) + 0
                = f.Deletions
            rw [sDel_setChildren_dir (by rfl), ihD]
            show sDelL [] + f.Deletions + 0 = f.Deletions
            simp [sDelL]
          rw [hx]

theorem setChildren_IsDir (c : TreeNode) (cs : List TreeNode) :
    (c.setChildren cs).IsDir = c.IsDir := by
  cases c; rfl

theorem setChildren_Children (c : TreeNode) (cs : List TreeNode) :
    (c.setChildren cs).Children = cs := by
  cases c; rfl

theorem setLeafFields_Children (f : FileStat) (c : TreeNode) :
    (setLeafFields f c).Children = c.Children := by
  cases c; rfl

/-- Freshness of one address survives inserting another, provided neither
address is a prefix of the other. -/
theorem okInsert_insertSegs :
    ∀ (gsegs fsegs : List String) (cs : List TreeNode) (pre : List String) (f : FileStat),
      okInsert cs gsegs →
      isSegPrefix fsegs gsegs = false → isSegPrefix gsegs fsegs = false →
      okInsert (insertSegs f pre fsegs cs) gsegs := by
  intro gsegs
  induction gsegs with
  | nil => intro fsegs cs pre f _ _ _; trivial
  | cons gp grest ih =>
    intro fsegs cs pre f hok hfg hgf
    cases fsegs with
    | nil => exact hok
    | cons fp frest =>
      by_cases hpp : fp = gp
      · subst hpp
        have hfg' : isSegPrefix frest grest = false := by simpa [isSegPrefix] using hfg
        have hgf' : isSegPrefix grest frest = false := by simpa [isSegPrefix] using hgf
        have hfne : frest ≠ [] := by
          intro h
          subst h
          simp [isSegPrefix] at hfg
        have hgne : grest ≠ [] := by
          intro h
          subst h
          simp [isSegPrefix] at hgf
        rw [insertSegs_cons]
        cases hff : findFirst fp cs with
        | some c =>
          have hhc : hasChild fp cs = true := by rw [hasChild_eq, hff]; rfl
          rw [if_pos hhc]
          have hfind := findFirst_replaceFirst fp _ (stepFn_Name f pre fp frest) cs
          rw [hff] at hfind
          cases grest with
          | nil => exact absurd rfl hgne
          | cons g0 g1 =>
            unfold okInsert at hok ⊢
            rw [hff] at hok
            rw [hfind]
            cases frest with
            | nil => exact absurd rfl hfne
            | cons f0 f1 =>
              constructor
              · unfold stepFn
                rw [if_neg (by simp), setChildren_IsDir]
                exact hok.1
              · unfold stepFn
                rw [if_neg (by simp), setChildren_Children]
                exact ih (f0 :: f1) c.Children (pre ++ [fp]) f hok.2 hfg' hgf'
        | none =>
          have hhc : hasChild fp cs = false := by rw [hasChild_eq, hff]; rfl
          rw [if_neg (by rw [hhc]; simp)]
          cases grest with
          | nil => exact absurd rfl hgne
          | cons g0 g1 =>
            unfold okInsert
            rw [findFirst_append_none fp cs _ hff]
            have hxname : (stepFn f pre fp frest
                (TreeNode.mk fp (joinPath (pre ++ [fp])) (!frest.isEmpty)
                  0 0 false false [])).Name = fp := by
              rw [stepFn_Name]
              rfl
            rw [if_pos hxname]
            cases frest with
            | nil => exact absurd rfl hfne
            | cons f0 f1 =>
              constructor
              · unfold stepFn
                rw [if_neg (by simp), setChildren_IsDir]
                rfl
              · unfold stepFn
                rw [if_neg (by simp), setChildren_Children]
                exact ih (f0 :: f1) [] (pre ++ [fp]) f (okInsert_nil _) hfg' hgf'
      · have hfind : findFirst gp (insertSegs f pre (fp :: frest) cs) = findFirst gp cs := by
          rw [insertSegs_cons]
          by_cases hhc : hasChild fp cs
          · rw [if_pos hhc]
            exact findFirst_replaceFirst_ne fp gp _ (stepFn_Name f pre fp frest)
              (fun h => hpp h.symm) cs
          · rw [if_neg hhc]
            cases hffg : findFirst gp cs with
            | some c => exact findFirst_append_some gp cs _ c hffg
            | none =>
              rw [findFirst_append_none gp cs _ hffg]
              rw [if_neg (by rw [stepFn_Name]; exact hpp)]
        cases grest with
        | nil =>
          show findFirst gp (insertSegs f pre (fp :: frest) cs) = none
          rw [hfind]
          exact hok
        | cons g0 g1 =>
          unfold okInsert at hok ⊢
          rw [hfind]
          exact hok

theorem setLeafFields_vals (f : FileStat) (c : TreeNode) :
    vals (setLeafFields f c) = (f.Additions, f.Deletions) := by
  cases c; rfl

theorem setChildren_vals (c : TreeNode) (cs : List TreeNode) :
    vals (c.setChildren cs) = vals c := by
  cases c; rfl

theorem getL_single (cs : List TreeNode) (last : String) :
    getL cs [last] = findFirst last cs := rfl

theorem getL_cons_some (cs : List TreeNode) (part : String) (rest : List String)
    (c : TreeNode) (h : findFirst part cs = some c) (hr : rest ≠ []) :
    getL cs (part :: rest) = getL c.Children rest := by
  cases rest with
  | nil => exact absurd rfl hr
  | cons r rs =>
    show (match findFirst part cs with
      | some c => getL c.Children (r :: rs)
      | none => none) = _
    rw [h]

theorem getL_cons_none (cs : List TreeNode) (part : String) (rest : List String)
    (h : findFirst part cs = none) (hr : rest ≠ []) :
    getL cs (part :: rest) = none := by
  cases rest with
  | nil => exact absurd rfl hr
  | cons r rs =>
    show (match findFirst part cs with
      | some c => getL c.Children (r :: rs)
      | none => none) = _
    rw [h]

theorem stepFn_children_ne (f : FileStat) (pre : List String) (part : String)
    (rest : List String) (c : TreeNode) (hr : rest ≠ []) :
    (stepFn f pre part rest c).Children = insertSegs f (pre ++ [part]) rest c.Children := by
  unfold stepFn
  rw [if_neg (by simpa using hr), setChildren_Children]

theorem stepFn_nil_eq (f : FileStat) (pre : List String) (part : String) (c : TreeNode) :
    stepFn f pre part [] c = setLeafFields f c := rfl

/-- Inserting an address makes the walk to that address read back the
record's counters: the leaf is created or overwritten. -/
theorem getL_insert_self :
    ∀ (segs : List String) (cs : List TreeNode) (pre : List String) (f : FileStat),
      segs ≠ [] →
      (getL (insertSegs f pre segs cs) segs).map vals = some (f.Additions, f.Deletions) := by
  intro segs
  induction segs with
  | nil => intro _ _ _ h; exact absurd rfl h
  | cons part rest ih =>
    intro cs pre f _
    rw [insertSegs_cons]
    by_cases hc : hasChild part cs
    · rw [if_pos hc]
      rw [hasChild_eq] at hc
      obtain ⟨c, hfc⟩ := Option.isSome_iff_exists.mp hc
      have hff : findFirst part (replaceFirst part (stepFn f pre part rest) cs)
          = some (stepFn f pre part rest c) := by
        rw [findFirst_replaceFirst part _ (stepFn_Name f pre part rest) cs, hfc]
        rfl
      cases rest with
      | nil =>
        rw [getL_single, hff, Option.map_some', stepFn_nil_eq, setLeafFields_vals]
      | cons r rs =>
        rw [getL_cons_some _ _ _ _ hff (by simp),
          stepFn_children_ne f pre part (r :: rs) c (by simp)]
        exact ih c.Children (pre ++ [part]) f (by simp)
    · rw [if_neg hc]
      rw [hasChild_eq] at hc
      have hfc : findFirst part cs = none := Option.not_isSome_iff_eq_none.mp (by simpa using hc)
      have hxn : (stepFn f pre part rest
          (TreeNode.mk part (joinPath (pre ++ [part])) (!rest.isEmpty) 0 0 false false [])).Name
          = part := by
        rw [stepFn_Name]
        rfl
      have hff : findFirst part (cs ++ [stepFn f pre part rest
          (TreeNode.mk part (joinPath (pre ++ [part])) (!rest.isEmpty) 0 0 false false [])])
          = some (stepFn f pre part rest
            (TreeNode.mk part (joinPath (pre ++ [part])) (!rest.isEmpty) 0 0 false false [])) := by
        rw [findFirst_append_none part cs _ hfc, if_pos hxn]
      cases rest with
      | nil =>
        rw [getL_single, hff, Option.map_some', stepFn_nil_eq, setLeafFields_vals]
      | cons r rs =>
        rw [getL_cons_some _ _ _ _ hff (by simp),
          stepFn_children_ne f pre part (r :: rs) _ (by simp)]
        exact ih _ (pre ++ [part]) f (by simp)

/-- Inserting one address leaves the counters read at any other address
unchanged. -/
theorem getL_insert_other :
    ∀ (segs' segs : List String) (cs : List TreeNode) (pre : List String) (f : FileStat)
      (v : Nat × Nat),
      segs' ≠ segs →
      (getL cs segs').map vals = some v →
      (getL (insertSegs f pre segs cs) segs').map vals = some v := by
  intro segs'
  induction segs' with
  | nil =>
    intro segs cs pre f v _ h
    exact absurd h (by simp [getL])
  | cons part' rest' ih =>
    intro segs cs pre f v hne h
    cases segs with
    | nil => exact h
    | cons part rest =>
      rw [insertSegs_cons]
      by_cases hc : hasChild part cs
      · rw [if_pos hc]
        rw [hasChild_eq] at hc
        obtain ⟨c, hfc⟩ := Option.isSome_iff_exists.mp hc
        by_cases hpp : part' = part
        · subst hpp
          have hrr : rest' ≠ rest := fun hr => hne (by rw [hr])
          have hff : findFirst part' (replaceFirst part' (stepFn f pre part' rest) cs)
              = some (stepFn f pre part' rest c) := by
            rw [findFirst_replaceFirst part' _ (stepFn_Name f pre part' rest) cs, hfc]
            rfl
          cases rest' with
          | nil =>
            rw [getL_single, hfc, Option.map_some'] at h
            rw [getL_single, hff, Option.map_some']
            cases rest with
            | nil => exact absurd rfl hrr
            | cons r rs =>
              rw [show stepFn f pre part' (r :: rs) c
                  = c.setChildren (insertSegs f (pre ++ [part']) (r :: rs) c.Children) from rfl,
                setChildren_vals]
              exact h
          | cons r' rs' =>
            rw [getL_cons_some _ _ _ _ hfc (by simp)] at h
            rw [getL_cons_some _ _ _ _ hff (by simp)]
            cases rest with
            | nil =>
              rw [stepFn_nil_eq, setLeafFields_Children]
              exact h
            | cons r rs =>
              rw [stepFn_children_ne f pre part' (r :: rs) c (by simp)]
              exact ih (r :: rs) c.Children (pre ++ [part']) f v hrr h
        · have hff : findFirst part' (replaceFirst part (stepFn f pre part rest) cs)
              = findFirst part' cs :=
            findFirst_replaceFirst_ne part part' _ (stepFn_Name f pre part rest) hpp cs
          cases rest' with
          | nil =>
            rw [getL_single] at h ⊢
            rw [hff]
            exact h
          | cons r' rs' =>
            cases hfc' : findFirst part' cs with
            | none =>
              rw [getL_cons_none _ _ _ hfc' (by simp)] at h
              cases h
            | some c' =>
              rw [getL_cons_some _ _ _ _ hfc' (by simp)] at h
              rw [getL_cons_some _ _ _ _ (hff.trans hfc') (by simp)]
              exact h
      · rw [if_neg hc]
        rw [hasChild_eq] at hc
        have hfc : findFirst part cs = none :=
          Option.not_isSome_iff_eq_none.mp (by simpa using hc)
        by_cases hpp : part' = part
        · subst hpp
          cases rest' with
          | nil =>
            rw [getL_single, hfc] at h
            cases h
          | cons r' rs' =>
            rw [getL_cons_none _ _ _ hfc (by simp)] at h
            cases h
        · cases hfc' : findFirst part' cs with
          | none =>
            cases rest' with
            | nil =>
              rw [getL_single, hfc'] at h
              cases h
            | cons r' rs' =>
              rw [getL_cons_none _ _ _ hfc' (by simp)] at h
              cases h
          | some c' =>
            have hff : findFirst part' (cs ++ [stepFn f pre part rest
                (TreeNode.mk part (joinPath (pre ++ [part])) (!rest.isEmpty) 0 0 false false [])])
                = some c' := findFirst_append_some part' cs _ c' hfc'
            cases rest' with
            | nil =>
              rw [getL_single, hfc'] at h
              rw [getL_single, hff]
              exact h
            | cons r' rs' =>
              rw [getL_cons_some _ _ _ _ hfc' (by simp)] at h
              rw [getL_cons_some _ _ _ _ hff (by simp)]
              exact h

theorem foldl_insertPath_eq (l : List FileStat) (n p : String) (d : Bool) (a del : Nat)
    (b u : Bool) (cs : List TreeNode) :
    l.foldl insertPath (TreeNode.mk n p d a del b u cs)
      = TreeNode.mk n p d a del b u (foldInsert cs l) := by
  induction l generalizing cs with
  | nil => rfl
  | cons g rest ih =>
    show rest.foldl insertPath (insertPath (TreeNode.mk n p d a del b u cs) g)
        = TreeNode.mk n p d a del b u (foldInsert (insertSegs g [] (splitPath g.Path) cs) rest)
    exact ih (insertSegs g [] (splitPath g.Path) cs)

theorem buildTreeFromFiles_eq (files : List FileStat) :
    buildTreeFromFiles files
      = TreeNode.mk "" "" true 0 0 false false (foldInsert [] (sortFiles files)) :=
  foldl_insertPath_eq (sortFiles files) "" "" true 0 0 false false []

theorem lastWith_cons_of_some (p : String) (g : FileStat) (rest : List FileStat)
    (f : FileStat) (h : lastWith p rest = some f) : lastWith p (g :: rest) = some f := by
  unfold lastWith at h ⊢
  rw [List.filter_cons]
  by_cases hg : g.Path = p
  · rw [if_pos (by simp [hg])]
    cases hfr : rest.filter fun x => x.Path = p with
    | nil => rw [hfr] at h; cases h
    | cons x xs =>
      rw [hfr] at h
      rw [List.getLast?_cons_cons]
      exact h
  · rw [if_neg (by simp [hg])]
    exact h

theorem lastWith_cons_of_none (p : String) (g : FileStat) (rest : List FileStat)
    (h : lastWith p rest = none) :
    lastWith p (g :: rest) = if g.Path = p then some g else none := by
  unfold lastWith at h ⊢
  have hfr : (rest.filter fun x => x.Path = p) = [] := by
    by_contra hne
    have hs := List.getLast?_isSome.mpr hne
    rw [h] at hs
    cases hs
  rw [List.filter_cons, hfr]
  by_cases hg : g.Path = p
  · rw [if_pos (by simp [hg]), if_pos hg]
    rfl
  · rw [if_neg (by simp [hg]), if_neg hg]
    rfl

theorem lastWith_path :
    ∀ (l : List FileStat) (p : String) (f : FileStat), lastWith p l = some f → f.Path = p := by
  intro l
  induction l with
  | nil => intro p f h; cases h
  | cons g rest ih =>
    intro p f h
    cases hr : lastWith p rest with
    | some f' =>
      rw [lastWith_cons_of_some p g rest f' hr] at h
      injection h with h
      subst h
      exact ih p f' hr
    | none =>
      rw [lastWith_cons_of_none p g rest hr] at h
      by_cases hg : g.Path = p
      · rw [if_pos hg] at h
        injection h with h
        rw [← h]
        exact hg
      · rw [if_neg hg] at h
        cases h

theorem lastWith_none_not_mem (p : String) (l : List FileStat)
    (h : lastWith p l = none) : ∀ g ∈ l, g.Path ≠ p := by
  unfold lastWith at h
  have hfr : (l.filter fun x => x.Path = p) = [] := by
    by_contra hne
    have hs := List.getLast?_isSome.mpr hne
    rw [h] at hs
    cases hs
  intro g hg
  have := List.filter_eq_nil.mp hfr g hg
  simpa using this

theorem segDistinct_symm : Symmetric segDistinct := fun _ _ h => ⟨h.2, h.1⟩

theorem foldInsert_sums :
    ∀ (l : List FileStat) (cs : List TreeNode),
      (∀ g ∈ l, okInsert cs (splitPath g.Path)) →
      List.Pairwise segDistinct l →
      sAddL (foldInsert cs l) = sAddL cs + (l.map FileStat.Additions).sum ∧
      sDelL (foldInsert cs l) = sDelL cs + (l.map FileStat.Deletions).sum := by
  intro l
  induction l with
  | nil => intro cs _ _; simp [foldInsert]
  | cons g rest ih =>
    intro cs hok hpw
    rcases List.pairwise_cons.mp hpw with ⟨hg, hrest⟩
    obtain ⟨hA, hD⟩ := insertSegs_sums (splitPath g.Path) cs [] g (splitPath_ne_nil _)
      (hok g (by simp))
    have hok' : ∀ g' ∈ rest, okInsert (insertSegs g [] (splitPath g.Path) cs)
        (splitPath g'.Path) := by
      intro g' hg'
      exact okInsert_insertSegs (splitPath g'.Path) (splitPath g.Path) cs [] g
        (hok g' (by simp [hg'])) (hg g' hg').1 (hg g' hg').2
    obtain ⟨ihA, ihD⟩ := ih (insertSegs g [] (splitPath g.Path) cs) hok' hrest
    show sAddL (foldInsert (insertSegs g [] (splitPath g.Path) cs) rest)
          = sAddL cs + ((g :: rest).map FileStat.Additions).sum ∧
        sDelL (foldInsert (insertSegs g [] (splitPath g.Path) cs) rest)
          = sDelL cs + ((g :: rest).map FileStat.Deletions).sum
    rw [ihA, ihD, hA, hD]
    simp only [List.map_cons, List.sum_cons]
    omega

theorem insertSortedFile_perm (f : FileStat) (l : List FileStat) :
    List.Perm (insertSortedFile f l) (f :: l) := by
  induction l with
  | nil => exact List.Perm.refl _
  | cons g gs ih =>
    unfold insertSortedFile
    by_cases h : strLt f.Path g.Path
    · rw [if_pos h]
    · rw [if_neg h]
      exact (List.Perm.cons g ih).trans (List.Perm.swap f g gs)

theorem sortFiles_perm (l : List FileStat) : List.Perm (sortFiles l) l := by
  induction l with
  | nil => exact List.Perm.refl _
  | cons f fs ih =>
    exact (insertSortedFile_perm f (sortFiles fs)).trans (List.Perm.cons f ih)

theorem calcTotals_mk (n p : String) (d : Bool) (a del : Nat) (b u : Bool)
    (cs : List TreeNode) :
    calcTotals (TreeNode.mk n p d a del b u cs)
      = if d then
          TreeNode.mk n p d (sumAddL (calcTotalsL cs)) (sumDelL (calcTotalsL cs)) b u
            (calcTotalsL cs)
        else TreeNode.mk n p d a del b u cs := rfl

theorem sum_calcTotalsL (cs : List TreeNode)
    (h : ∀ c ∈ cs, (calcTotals c).Add = sAdd c ∧ (calcTotals c).Del = sDel c) :
    sumAddL (calcTotalsL cs) = sAddL cs ∧ sumDelL (calcTotalsL cs) = sDelL cs := by
  induction cs with
  | nil => exact ⟨rfl, rfl⟩
  | cons c cs ih =>
    obtain ⟨ihA, ihD⟩ := ih fun x hx => h x (by simp [hx])
    obtain ⟨hA, hD⟩ := h c (by simp)
    show (calcTotals c).Add + sumAddL (calcTotalsL cs) = sAdd c + sAddL cs ∧
        (calcTotals c).Del + sumDelL (calcTotalsL cs) = sDel c + sDelL cs
    rw [ihA, ihD, hA, hD]
    exact ⟨rfl, rfl⟩

theorem calcTotals_vals (t : TreeNode) :
    (calcTotals t).Add = sAdd t ∧ (calcTotals t).Del = sDel t := by
  suffices hs : ∀ n (t : TreeNode), nodeSize t ≤ n →
      (calcTotals t).Add = sAdd t ∧ (calcTotals t).Del = sDel t from
    hs (nodeSize t) t (le_refl _)
  intro n
  induction n using Nat.strong_induction_on with
  | _ n ih =>
    intro t htn
    cases t with
    | mk nm p d a del b u cs =>
      rw [calcTotals_mk]
      by_cases hd : d = true
      · rw [if_pos hd]
        have hsub : ∀ c ∈ cs, (calcTotals c).Add = sAdd c ∧ (calcTotals c).Del = sDel c := by
          intro c hc
          have h1 := nodeSize_le_of_mem hc
          rw [nodeSize_eq] at htn
          simp only [TreeNode.Children] at htn
          exact ih (nodeSize c) (by omega) c (le_refl _)
        obtain ⟨hA, hD⟩ := sum_calcTotalsL cs hsub
        subst hd
        exact ⟨hA, hD⟩
      · rw [if_neg hd]
        have hd' : d = false := by
          cases d
          · rfl
          · exact absurd rfl hd
        subst hd'
        exact ⟨rfl, rfl⟩

theorem collapse_Add (t : TreeNode) : (collapse t).Add = t.Add := by
  cases t; rfl

theorem collapse_Del (t : TreeNode) : (collapse t).Del = t.Del := by
  cases t; rfl

/-- C3 (amended): for every record set whose paths are pairwise
segment-prefix-free (in particular pairwise distinct), the root's
aggregated additions and deletions after `BuildTreeFromFiles`,
`CalcTotals` and `CollapseSingleChildPaths` equal the sums over the input
records. -/
theorem tree_totals_match_input (files : List FileStat)
    (h : List.Pairwise (fun a b =>
        isSegPrefix (splitPath a.Path) (splitPath b.Path) = false ∧
        isSegPrefix (splitPath b.Path) (splitPath a.Path) = false) files) :
    (collapse (calcTotals (buildTreeFromFiles files))).Add
        = (files.map FileStat.Additions).sum ∧
    (collapse (calcTotals (buildTreeFromFiles files))).Del
        = (files.map FileStat.Deletions).sum := by
  have hpw : List.Pairwise segDistinct (sortFiles files) :=
    ((sortFiles_perm files).pairwise_iff fun hxy => segDistinct_symm hxy).mpr h
  rw [collapse_Add, collapse_Del, (calcTotals_vals _).1, (calcTotals_vals _).2,
    buildTreeFromFiles_eq]
  obtain ⟨hA, hD⟩ := foldInsert_sums (sortFiles files) []
    (fun g _ => okInsert_nil (splitPath g.Path)) hpw
  have hsumA : ((sortFiles files).map FileStat.Additions).sum
      = (files.map FileStat.Additions).sum :=
    ((sortFiles_perm files).map FileStat.Additions).sum_eq
  have hsumD : ((sortFiles files).map FileStat.Deletions).sum
      = (files.map FileStat.Deletions).sum :=
    ((sortFiles_perm files).map FileStat.Deletions).sum_eq
  constructor
  · show sAddL (foldInsert [] (sortFiles files)) = _
    rw [hA, hsumA]
    show 0 + _ = _
    exact Nat.zero_add _
  · show sDelL (foldInsert [] (sortFiles files)) = _
    rw [hD, hsumD]
    show 0 + _ = _
    exact Nat.zero_add _

theorem getL_foldInsert_preserve :
    ∀ (l : List FileStat) (cs : List TreeNode) (segs : List String) (v : Nat × Nat),
      (∀ g ∈ l, splitPath g.Path ≠ segs) →
      (getL cs segs).map vals = some v →
      (getL (foldInsert cs l) segs).map vals = some v := by
  intro l
  induction l with
  | nil => intro cs segs v _ h; exact h
  | cons g rest ih =>
    intro cs segs v hne h
    show (getL (foldInsert (insertSegs g [] (splitPath g.Path) cs) rest) segs).map vals = some v
    apply ih _ segs v fun g' hg' => hne g' (by simp [hg'])
    exact getL_insert_other segs (splitPath g.Path) cs [] g v
      (fun he => hne g (by simp) he.symm) h

/-- After the insertion fold, the walk to any path reads back the last
record of the insertion sequence carrying that path. -/
theorem getL_foldInsert_last :
    ∀ (l : List FileStat) (cs : List TreeNode) (p : String) (f : FileStat),
      lastWith p l = some f →
      (getL (foldInsert cs l) (splitPath p)).map vals = some (f.Additions, f.Deletions) := by
  intro l
  induction l with
  | nil => intro cs p f h; cases h
  | cons g rest ih =>
    intro cs p f h
    show (getL (foldInsert (insertSegs g [] (splitPath g.Path) cs) rest) (splitPath p)).map vals = _
    cases hr : lastWith p rest with
    | some f' =>
      rw [lastWith_cons_of_some p g rest f' hr] at h
      injection h with h
      subst h
      exact ih _ p f' hr
    | none =>
      rw [lastWith_cons_of_none p g rest hr] at h
      by_cases hg : g.Path = p
      · rw [if_pos hg] at h
        injection h with h
        subst h
        apply getL_foldInsert_preserve rest _ (splitPath p) _
          fun g' hg' heq =>
            lastWith_none_not_mem p rest hr g' hg' (splitPath_injective heq)
        rw [← hg]
        exact getL_insert_self (splitPath g.Path) cs [] g (splitPath_ne_nil _)
      · rw [if_neg hg] at h
        cases h

/-- C10: with duplicate paths the builder overwrites rather than
accumulates — after the alphabetical pre-sort, the leaf's counters are
those of the last-inserted record for that path; concretely, two records
for "a" with 1 and 2 additions leave a leaf with 1 addition, not the sum
3. -/
theorem insert_duplicate_overwrites (files : List FileStat) (p : String) (f : FileStat)
    (h : lastWith p (sortFiles files) = some f) :
    (getL (buildTreeFromFiles files).Children (splitPath p)).map vals
        = some (f.Additions, f.Deletions) ∧
    ((getL (buildTreeFromFiles
        [⟨"a", 1, 0, false, false⟩, ⟨"a", 2, 0, false, false⟩]).Children
        (splitPath "a")).map vals = some (1, 0) ∧ (1 : Nat) ≠ 1 + 2) := by
  refine ⟨?_, by decide, by decide⟩
  rw [buildTreeFromFiles_eq]
  show (getL (foldInsert [] (sortFiles files)) (splitPath p)).map vals = _
  exact getL_foldInsert_last (sortFiles files) [] p f h

theorem insert_duplicate_overwrites_witness :
    (getL (buildTreeFromFiles
        [⟨"a", 1, 0, false, false⟩, ⟨"a", 2, 0, false, false⟩]).Children
        (splitPath "a")).map vals = some (1, 0) :=
  (insert_duplicate_overwrites [⟨"a", 1, 0, false, false⟩, ⟨"a", 2, 0, false, false⟩]
    "a" ⟨"a", 1, 0, false, false⟩ (by decide)).1

theorem tree_totals_match_input_witness :
    (collapse (calcTotals (buildTreeFromFiles
        [⟨"a", 1, 0, false, false⟩, ⟨"b/c", 2, 3, false, false⟩]))).Add = 3 ∧
    (collapse (calcTotals (buildTreeFromFiles
        [⟨"a", 1, 0, false, false⟩, ⟨"b/c", 2, 3, false, false⟩]))).Del = 3 := by
  have h := tree_totals_match_input
    [⟨"a", 1, 0, false, false⟩, ⟨"b/c", 2, 3, false, false⟩] (by decide)
  exact ⟨h.1.trans (by decide), h.2.trans (by decide)⟩

/-- C3 counterexample: two records with the same path are overwritten, not
accumulated — the pipeline total is 1, the input total 3. -/
theorem tree_totals_counterexample :
    (collapse (calcTotals (buildTreeFromFiles
        [⟨"a", 1, 0, false, false⟩, ⟨"a", 2, 0, false, false⟩]))).Add = 1 ∧
    ([(⟨"a", 1, 0, false, false⟩ : FileStat), ⟨"a", 2, 0, false, false⟩].map
        FileStat.Additions).sum = 3 := by
  decide

end DiffViz
